import Mathlib

/-!
# Verification of the JourneyApp asynchronous bulk data export pipeline

A shallow embedding of the export subsystem of the JourneyApp backend
(`internal/handlers/export-data-handler.go`, the export-progress handler and
the export-download handler) together with proofs of the specified
properties of that subsystem.

Modelling conventions:
* Go machine integers that hold row counts, counters and percentages are
  modelled as `Nat` (they are always non-negative in the source: `COUNT(*)`
  results, monotone counters, clamped percentages).
* Timestamps (`time.Time`) are modelled as abstract `Nat` instants.
* Fallible external calls (PostgreSQL queries, row scans, filesystem
  operations, blob copies) are modelled by an environment that records, for
  each call the background job performs, either success with its data or
  failure with the Go error message (`Except String _`).
* Every `saveExportStatus` / `updateProgress` call (a Redis `SET` whose
  error the source discards) is modelled by appending the job record, as it
  is at that moment, to a trace of persisted records.  The trace is the
  sequence of states a poller can observe.
* The Go expression `int(float64(processed)/float64(total)*100.0)` performs
  two IEEE-754 double operations and then truncates toward zero.  Both
  conversions `float64(processed)` and `float64(total)` are exact (the
  counts are far below 2^53), the division and the multiplication by the
  exact constant 100.0 each round their infinitely precise result to 53
  significant bits, to nearest with ties to even, and the `int` conversion
  truncates.  `truncFloatPct` below implements exactly that: a 53-bit
  round-to-nearest-even division, a 53-bit round-to-nearest-even
  multiplication by 100, then truncation.  It is computed with natural
  number arithmetic only, and the lemmas relate it to the rational-valued
  rounding function `roundAt` to establish its ordering properties.
-/

namespace JourneyApp

/-- Equality of modelled call outcomes is decidable. -/
instance {ε α : Type} [DecidableEq ε] [DecidableEq α] : DecidableEq (Except ε α) := fun x y =>
  match x, y with
  | .ok a, .ok b =>
      if h : a = b then isTrue (congrArg Except.ok h)
      else isFalse fun hh => h (Except.ok.inj hh)
  | .ok _, .error _ => isFalse fun hh => Except.noConfusion hh
  | .error _, .ok _ => isFalse fun hh => Except.noConfusion hh
  | .error a, .error b =>
      if h : a = b then isTrue (congrArg Except.error h)
      else isFalse fun hh => h (Except.error.inj hh)

/-- Embedding of the Go struct `ExportJobStatus`
(export-data-handler.go, lines 26-41).  Field names follow the source. -/
structure ExportJobStatus where
  JobID : String
  UID : String
  Status : String
  Progress : Nat
  StartedAt : Nat
  CompletedAt : Option Nat
  TotalEntries : Nat
  TotalImages : Nat
  TotalAudio : Nat
  ProcessedEntries : Nat
  ProcessedImages : Nat
  ProcessedAudio : Nat
  ZipPath : String
  Error : String
  deriving DecidableEq

/-- One media row (`images` or `audio` table) as the export job sees it:
the stored URL, the outcome of `rows.Scan` for this row, and the outcome of
the filesystem copy of the referenced blob (`os.Open`/`os.Create`/`io.Copy`
inside `copyMediaFromURL`). -/
structure MediaItem where
  url : String
  scanRes : Except String Unit
  copyRes : Except String Unit
  deriving DecidableEq

/-- One tag row: key/value plus the outcome of `rows.Scan` for this row. -/
structure TagItem where
  key : String
  value : String
  scanRes : Except String Unit
  deriving DecidableEq

/-- One location row (numeric coordinate fields are irrelevant to every
claim and are represented by their rendered text). -/
structure LocationItem where
  displayName : String
  address : String
  scanRes : Except String Unit
  deriving DecidableEq

/-- One `entries` row with all sub-queries the export loop issues for it:
scan outcome, tags query, locations query, images query, audio query. -/
structure EntryItem where
  id : String
  title : String
  description : String
  scanRes : Except String Unit
  tagsRes : Except String (List TagItem)
  locationsRes : Except String (List LocationItem)
  imagesRes : Except String (List MediaItem)
  audioRes : Except String (List MediaItem)
  deriving DecidableEq

/-- The environment one run of `runExportJob` executes against: the record
loaded from Redis, and the outcome of each external call in program order.
`now` is the instant used for `CompletedAt`. -/
structure ExportEnv where
  loaded : Option ExportJobStatus
  mkdirRes : Except String Unit
  countEntriesRes : Except String Nat
  countImagesRes : Except String Nat
  countAudioRes : Except String Nat
  csvCreateRes : Except String Unit
  entriesRes : Except String (List EntryItem)
  zipRes : Except String Unit
  now : Nat
  deriving DecidableEq

/-- `true` iff an `Except` result is a success. -/
def exceptOk {α : Type} : Except String α → Bool
  | .ok _ => true
  | .error _ => false

/-- The record `ExportData` creates and persists at submission
(export-data-handler.go, lines 74-88): status `pending`, progress 0, all
counters and paths at their Go zero values. -/
def mkPendingStatus (jobID uid : String) (now : Nat) : ExportJobStatus :=
  { JobID := jobID
    UID := uid
    Status := "pending"
    Progress := 0
    StartedAt := now
    CompletedAt := none
    TotalEntries := 0
    TotalImages := 0
    TotalAudio := 0
    ProcessedEntries := 0
    ProcessedImages := 0
    ProcessedAudio := 0
    ZipPath := ""
    Error := "" }

/-- The state mutation every fatal branch of `runExportJob` performs:
`st.Status = "failed"; st.Error = fmt.Sprintf(...)`. -/
def failSt (st : ExportJobStatus) (msg : String) : ExportJobStatus :=
  { st with Status := "failed", Error := msg }

/-- Round-to-nearest with ties to even of the exact quotient `a / b`:
the integer IEEE-754 rounding selects when the dropped part of a result is
`a % b` out of `b`.  Used to model each correctly rounded double operation. -/
def rneDiv (a b : Nat) : Nat :=
  let q := a / b
  let r := a % b
  if 2 * r < b then q
  else if b < 2 * r then q + 1
  else if q % 2 = 0 then q else q + 1

/-- Fuel-driven binary logarithm: counts halvings until the argument drops
below 2.  The fuel only has to dominate the recursion depth. -/
def nlog2F : Nat → Nat → Nat
  | 0, _ => 0
  | fuel + 1, n => if 2 ≤ n then nlog2F fuel (n / 2) + 1 else 0

/-- `⌊log₂ n⌋` for `n ≥ 1` (and 0 at 0): the exponent of the binade a
positive number falls in, hence the exponent field of its double. -/
def nlog2 (n : Nat) : Nat := nlog2F n n

/-- Decides `2^e ≤ p/t` over the integers (both sides multiplied up by the
appropriate power of two). -/
def twoPowLeDiv (p t : Nat) (e : Int) : Bool :=
  if 0 ≤ e then 2 ^ e.toNat * t ≤ p else t ≤ 2 ^ (-e).toNat * p

/-- `⌊log₂ (p/t)⌋` for `p, t ≥ 1`: the binade of the exact quotient, i.e.
the exponent of the double `float64(p)/float64(t)`. -/
def flog2Div (p t : Nat) : Int :=
  let e0 : Int := (nlog2 p : Int) - (nlog2 t : Int)
  if twoPowLeDiv p t e0 then e0 else e0 - 1

/-- The 53-bit significand of the correctly rounded quotient `p/t` at
binade exponent `e`: round-to-nearest-even of `(p/t) · 2^(52-e)`. -/
def sigDiv (p t : Nat) (e : Int) : Nat :=
  if 0 ≤ 52 - e then rneDiv (p * 2 ^ (52 - e).toNat) t
  else rneDiv p (t * 2 ^ (e - 52).toNat)

/-- Exact model of the Go expression
`int(float64(processed) / float64(total) * 100.0)`: the division is rounded
to 53 significant bits (nearest, ties to even), the product with 100 is
rounded to 53 significant bits again, and the conversion to `int`
truncates toward zero.  Both `float64` conversions are exact for counts
below 2^53, where every reachable counter lives. -/
def truncFloatPct (p t : Nat) : Nat :=
  if p = 0 then 0
  else
    let e1 := flog2Div p t
    let n1 := sigDiv p t e1
    let prod := 100 * n1
    let k := nlog2 prod
    let n2 := rneDiv prod (2 ^ (k - 52))
    let s2 : Int := (e1 - 52) + ((k - 52 : Nat) : Int)
    if 0 ≤ s2 then n2 * 2 ^ s2.toNat else n2 / 2 ^ (-s2).toNat

/-- Round-to-nearest with ties to even of a rational, as an integer: the
reference reading of `rneDiv` used by the ordering lemmas. -/
def rneQ (x : ℚ) : Int :=
  if Int.fract x < 1/2 then ⌊x⌋
  else if 1/2 < Int.fract x then ⌊x⌋ + 1
  else if ⌊x⌋ % 2 = 0 then ⌊x⌋ else ⌊x⌋ + 1

/-- The value of a rational correctly rounded to 53 significant bits at
binade exponent `e`: the reference reading of one double operation. -/
def roundAt (x : ℚ) (e : Int) : ℚ :=
  ((rneQ (x * (2:ℚ)^((52:Int) - e)) : Int) : ℚ) * (2:ℚ)^(e - 52)

/-- Embedding of `recalculateAndPersistProgress` (lines 308-321) minus the
persistence side effect (handled by the caller appending to the trace).
`int(float64(processed)/float64(total)*100.0)` is `truncFloatPct`;
`total <= 0` degenerates to `total = 0` over `Nat`. -/
def recalcProgress (st : ExportJobStatus) : ExportJobStatus :=
  let total := st.TotalEntries + st.TotalImages + st.TotalAudio
  let processed := st.ProcessedEntries + st.ProcessedImages + st.ProcessedAudio
  if total = 0 then
    { st with Progress := 100 }
  else
    let pct := truncFloatPct processed total
    let pct := if pct > 100 then 100 else pct
    { st with Progress := pct }

/-- JSON rendering of one tag row, as `json.Marshal` renders the Go
`tag` struct. -/
def tagJSON (t : TagItem) : String :=
  "\x7b\"key\":\"" ++ t.key ++ "\",\"value\":\"" ++ t.value ++ "\"\x7d"

/-- JSON rendering of one location row (only claim-irrelevant text). -/
def locationJSON (l : LocationItem) : String :=
  "\x7b\"address\":\"" ++ l.address ++ "\",\"displayName\":\"" ++ l.displayName ++ "\"\x7d"

/-- `json.Marshal` of a Go slice built by appending: a slice that stayed
`nil` marshals to `"null"`, otherwise to a JSON array. -/
def marshalList (elems : List String) : String :=
  if elems.isEmpty then "null"
  else "[" ++ String.intercalate "," elems ++ "]"

/-- Embedding of `fetchTagsJSON` (lines 323-342).  A failing query is
swallowed: the function returns `"[]"` with a `nil` error.  A failing row
scan is swallowed: the row is skipped.  Hence the returned error is always
`nil` (`Except.ok`). -/
def fetchTagsJSON (tagsRes : Except String (List TagItem)) : Except String String :=
  match tagsRes with
  | .error _ => .ok "[]"
  | .ok rows =>
      .ok (marshalList ((rows.filter (fun t => exceptOk t.scanRes)).map tagJSON))

/-- Embedding of `fetchLocationsJSON` (lines 344-370); same swallowing
behaviour as `fetchTagsJSON`. -/
def fetchLocationsJSON (locationsRes : Except String (List LocationItem)) :
    Except String String :=
  match locationsRes with
  | .error _ => .ok "[]"
  | .ok rows =>
      .ok (marshalList ((rows.filter (fun l => exceptOk l.scanRes)).map locationJSON))

/-- Embedding of `copyMediaFromURL` (lines 374-399): URLs outside
`/images/` and `/audio/` are rejected outright; otherwise the outcome is
that of the filesystem open/create/copy, recorded in the environment. -/
def copyMediaFromURL (urlPath : String) (copyRes : Except String Unit) :
    Except String Unit :=
  if urlPath.startsWith "/images/" then copyRes
  else if urlPath.startsWith "/audio/" then copyRes
  else .error ("unsupported media URL: " ++ urlPath)

/-- The image-copy loop (lines 251-265).  Result: `(ok, final state, trace
of persisted records)`.  A scan failure is fatal; a copy failure is only
logged (`fmt.Printf`) and the processed counter is incremented anyway. -/
def processImages : List MediaItem → ExportJobStatus →
    Bool × ExportJobStatus × List ExportJobStatus
  | [], st => (true, st, [])
  | m :: ms, st =>
    match m.scanRes with
    | .error e => (false, failSt st ("failed to scan image: " ++ e), [])
    | .ok _ =>
      let _copyOutcome := copyMediaFromURL m.url m.copyRes
      let st1 := recalcProgress { st with ProcessedImages := st.ProcessedImages + 1 }
      let r := processImages ms st1
      (r.1, r.2.1, st1 :: r.2.2)

/-- The audio-copy loop (lines 275-289), same shape as `processImages`. -/
def processAudio : List MediaItem → ExportJobStatus →
    Bool × ExportJobStatus × List ExportJobStatus
  | [], st => (true, st, [])
  | m :: ms, st =>
    match m.scanRes with
    | .error e => (false, failSt st ("failed to scan audio: " ++ e), [])
    | .ok _ =>
      let _copyOutcome := copyMediaFromURL m.url m.copyRes
      let st1 := recalcProgress { st with ProcessedAudio := st.ProcessedAudio + 1 }
      let r := processAudio ms st1
      (r.1, r.2.1, st1 :: r.2.2)

/-- One iteration of the entries loop (lines 199-291): scan the entry row,
fetch tags and locations (never fatal, see `fetchTagsJSON`), write the CSV
row, bump `ProcessedEntries` and persist, then run the two media loops; a
failure of either media-list query is fatal. -/
def processEntry (e : EntryItem) (st : ExportJobStatus) :
    Bool × ExportJobStatus × List ExportJobStatus :=
  match e.scanRes with
  | .error msg => (false, failSt st ("failed to scan entry: " ++ msg), [])
  | .ok _ =>
    match fetchTagsJSON e.tagsRes with
    | .error msg => (false, failSt st ("failed to fetch tags: " ++ msg), [])
    | .ok _tagsJSON =>
      match fetchLocationsJSON e.locationsRes with
      | .error msg => (false, failSt st ("failed to fetch locations: " ++ msg), [])
      | .ok _locationsJSON =>
        let st1 := recalcProgress { st with ProcessedEntries := st.ProcessedEntries + 1 }
        match e.imagesRes with
        | .error msg => (false, failSt st1 ("failed to fetch images: " ++ msg), [st1])
        | .ok imgs =>
          match processImages imgs st1 with
          | (false, stF, ws) => (false, stF, st1 :: ws)
          | (true, st2, ws1) =>
            match e.audioRes with
            | .error msg => (false, failSt st2 ("failed to fetch audio: " ++ msg), st1 :: ws1)
            | .ok auds =>
              let r := processAudio auds st2
              (r.1, r.2.1, st1 :: ws1 ++ r.2.2)

/-- The full entries loop: process entries in query order, stopping at the
first fatal failure. -/
def processEntries : List EntryItem → ExportJobStatus →
    Bool × ExportJobStatus × List ExportJobStatus
  | [], st => (true, st, [])
  | e :: es, st =>
    match processEntry e st with
    | (false, stF, ws) => (false, stF, ws)
    | (true, st1, ws) =>
      let r := processEntries es st1
      (r.1, r.2.1, ws ++ r.2.2)

/-- The body of `runExportJob` after the record has been loaded and marked
`running` (lines 140-306): directory creation, the three totals counts, the
totals persist, CSV creation, the entries query, the entries loop, zipping,
and the terminal mutation.  Result: `(state at return, records persisted by
the body)`; the deferred final persist is added by `runExportJob`. -/
def runBody (jobID uid : String) (env : ExportEnv) (st : ExportJobStatus) :
    ExportJobStatus × List ExportJobStatus :=
  match env.mkdirRes with
  | .error msg => (failSt st ("failed to create export directories: " ++ msg), [])
  | .ok _ =>
  match env.countEntriesRes with
  | .error msg => (failSt st ("failed to count entries: " ++ msg), [])
  | .ok totalEntries =>
  match env.countImagesRes with
  | .error msg => (failSt st ("failed to count images: " ++ msg), [])
  | .ok totalImages =>
  match env.countAudioRes with
  | .error msg => (failSt st ("failed to count audio: " ++ msg), [])
  | .ok totalAudio =>
  let st1 := { st with TotalEntries := totalEntries, TotalImages := totalImages,
                       TotalAudio := totalAudio }
  -- h.updateProgress(ctx, st) : persist the totals
  match env.csvCreateRes with
  | .error msg => (failSt st1 ("failed to create CSV file: " ++ msg), [st1])
  | .ok _ =>
  match env.entriesRes with
  | .error msg => (failSt st1 ("failed to fetch entries: " ++ msg), [st1])
  | .ok entries =>
  match processEntries entries st1 with
  | (false, stF, ws) => (stF, st1 :: ws)
  | (true, st2, ws) =>
    match env.zipRes with
    | .error msg => (failSt st2 ("failed to create zip: " ++ msg), st1 :: ws)
    | .ok _ =>
      let zipPath := "internal/exports/" ++ uid ++ "/" ++ jobID ++ ".zip"
      let st3 := { st2 with ZipPath := zipPath, CompletedAt := some env.now,
                            Status := "completed", Progress := 100 }
      -- h.updateProgress(ctx, st) : persist the completed record
      (st3, st1 :: ws ++ [st3])

/-- Embedding of `runExportJob` (lines 125-306).  The value is the trace of
records persisted to Redis by this background task, in order.  If the
initial load fails the task returns before writing anything (empty trace);
otherwise the `running` record is persisted first and the deferred
`updateProgress` persists the state at return as the last record. -/
def runExportJob (jobID uid : String) (env : ExportEnv) : List ExportJobStatus :=
  match env.loaded with
  | none => []
  | some st0 =>
    let st1 := { st0 with Status := "running" }
    let r := runBody jobID uid env st1
    st1 :: (r.2 ++ [r.1])

/-- The full persisted history of one job: the `pending` record written by
`ExportData` at submission, followed by everything the background task
writes. -/
def jobTrace (jobID uid : String) (t0 : Nat) (env : ExportEnv) : List ExportJobStatus :=
  mkPendingStatus jobID uid t0 :: runExportJob jobID uid env

/-! ## Derived notions used in the statements and proofs -/

/-- Sum of the per-category totals, as `recalculateAndPersistProgress`
computes it inline (`total := st.TotalEntries + st.TotalImages + st.TotalAudio`). -/
def sumTotals (st : ExportJobStatus) : Nat :=
  st.TotalEntries + st.TotalImages + st.TotalAudio

/-- Sum of the per-category processed counters. -/
def sumProcessed (st : ExportJobStatus) : Nat :=
  st.ProcessedEntries + st.ProcessedImages + st.ProcessedAudio

/-- The progress value the code computes, as a function of the record's
counters: the truncated two-step double computation, clamped above at 100,
with 100 for zero totals. -/
def accOf (st : ExportJobStatus) : Nat :=
  if sumTotals st = 0 then 100
  else if truncFloatPct (sumProcessed st) (sumTotals st) > 100 then 100
  else truncFloatPct (sumProcessed st) (sumTotals st)

/-- Modelled from the spec: the progress accounting the specification
prescribes, `clamp(round(sum(processed)/sum(totals) * 100), 0, 100)` with
the convention `sum(totals) = 0 ⇒ 100`.  Stated only to be compared with
the code's formula; `round` is floor of the quotient plus one half. -/
def specProgress (totals processed : Nat) : Nat :=
  if totals = 0 then 100
  else min ((processed * 200 + totals) / (2 * totals)) 100

/-- Success of the `rows.Scan` of one media row. -/
def mediaOkB (m : MediaItem) : Bool := exceptOk m.scanRes

/-- The image list the loop iterates for an entry (empty if the query
failed; in that case the loop is never reached). -/
def entryImages (e : EntryItem) : List MediaItem :=
  match e.imagesRes with
  | .ok l => l
  | .error _ => []

/-- The audio list the loop iterates for an entry. -/
def entryAudio (e : EntryItem) : List MediaItem :=
  match e.audioRes with
  | .ok l => l
  | .error _ => []

/-- All fatal checks of one entry iteration succeed: the entry scan, both
media-list queries, and every media-row scan.  (Tags/locations queries and
media copies cannot be fatal.) -/
def entryOkB (e : EntryItem) : Bool :=
  exceptOk e.scanRes &&
  (match e.imagesRes with
   | .ok l => l.all mediaOkB
   | .error _ => false) &&
  (match e.audioRes with
   | .ok l => l.all mediaOkB
   | .error _ => false)

/-- Every fatal check of the whole body succeeds. -/
def envAllOkB (env : ExportEnv) : Bool :=
  exceptOk env.mkdirRes && exceptOk env.countEntriesRes && exceptOk env.countImagesRes &&
  exceptOk env.countAudioRes && exceptOk env.csvCreateRes &&
  (match env.entriesRes with
   | .ok es => es.all entryOkB
   | .error _ => false) &&
  exceptOk env.zipRes

/-- Some record-store query of the extraction fails: a count, the entries
stream (query or row scan), or a media-list query or row scan. -/
def storeFatalB (env : ExportEnv) : Bool :=
  !(exceptOk env.countEntriesRes) || !(exceptOk env.countImagesRes) ||
  !(exceptOk env.countAudioRes) ||
  (match env.entriesRes with
   | .error _ => true
   | .ok es => es.any (fun e => !(entryOkB e)))

/-- The path `runExportJob` zips into:
`filepath.Join(userRoot, jobID + ".zip")`. -/
def zipPathOf (uid jobID : String) : String :=
  "internal/exports/" ++ uid ++ "/" ++ jobID ++ ".zip"

/-- The state after the three totals are stored into the record. -/
def setTotals (st : ExportJobStatus) (tE tI tA : Nat) : ExportJobStatus :=
  { st with TotalEntries := tE, TotalImages := tI, TotalAudio := tA }

/-- The terminal mutation of the success path (lines 300-304). -/
def completedSt (st2 : ExportJobStatus) (jobID uid : String) (now : Nat) : ExportJobStatus :=
  { st2 with ZipPath := zipPathOf uid jobID, CompletedAt := some now,
             Status := "completed", Progress := 100 }

/-- A record and a write agree on every field the media/entry loops never
touch. -/
def frameAgree (st w : ExportJobStatus) : Prop :=
  w.Status = st.Status ∧ w.ZipPath = st.ZipPath ∧ w.Error = st.Error ∧
  w.UID = st.UID ∧ w.JobID = st.JobID ∧ w.StartedAt = st.StartedAt ∧
  w.CompletedAt = st.CompletedAt ∧ w.TotalEntries = st.TotalEntries ∧
  w.TotalImages = st.TotalImages ∧ w.TotalAudio = st.TotalAudio

/-- A loop write: frame fields agree with the loop's starting state and
its progress is exactly the accounting of its own counters. -/
def writeFrame (st w : ExportJobStatus) : Prop :=
  frameAgree st w ∧ w.Progress = accOf w

/-! ## Concrete sample data for witnesses and counterexamples -/

/-- An entry whose every external call succeeds and that has no media. -/
def okEntry (i : String) : EntryItem :=
  { id := i, title := "t", description := "d", scanRes := .ok ()
    tagsRes := .ok [], locationsRes := .ok []
    imagesRes := .ok [], audioRes := .ok [] }

/-- A fully healthy environment with an empty export. -/
def baseEnv : ExportEnv :=
  { loaded := some (mkPendingStatus "job-1" "user-1" 0)
    mkdirRes := .ok ()
    countEntriesRes := .ok 0
    countImagesRes := .ok 0
    countAudioRes := .ok 0
    csvCreateRes := .ok ()
    entriesRes := .ok []
    zipRes := .ok ()
    now := 7 }

/-- Three healthy entries, no media: after the second entry the persisted
progress is the truncation 66, where rounding would give 67. -/
def envThree : ExportEnv :=
  { baseEnv with countEntriesRes := .ok 3
                 entriesRes := .ok [okEntry "e1", okEntry "e2", okEntry "e3"] }

/-- One entry whose tags query fails; everything else healthy. -/
def envTagsDown : ExportEnv :=
  { baseEnv with countEntriesRes := .ok 1
                 entriesRes := .ok [{ okEntry "e1" with tagsRes := .error "connection refused" }] }

/-- An image row whose blob copy fails. -/
def lostImage : MediaItem :=
  { url := "/images/user-1/e1/a.png", scanRes := .ok ()
    copyRes := .error "no such file or directory" }

/-- One entry referencing one image whose blob copy fails; every
record-store call healthy. -/
def envLostMedia : ExportEnv :=
  { baseEnv with countEntriesRes := .ok 1
                 countImagesRes := .ok 1
                 entriesRes := .ok [{ okEntry "e1" with imagesRes := .ok [lostImage] }] }

/-- The initial count query fails (simulated store outage). -/
def envOutage : ExportEnv :=
  { baseEnv with countEntriesRes := .error "connection reset" }

/-- An environment whose initial Redis load fails. -/
def envNoLoad : ExportEnv :=
  { baseEnv with loaded := none }

/-- A completed job record, as the success path leaves it. -/
def stCompletedEx : ExportJobStatus :=
  { mkPendingStatus "job-1" "user-1" 0 with
      Status := "completed", Progress := 100
      ZipPath := zipPathOf "user-1" "job-1", CompletedAt := some 9 }

/-- A failed job record, as a count failure leaves it. -/
def stFailedEx : ExportJobStatus :=
  { mkPendingStatus "job-1" "user-1" 0 with
      Status := "failed", Error := "failed to count entries: connection reset" }

/-- The relation a poller observes on progress values. -/
def progLE (a b : ExportJobStatus) : Prop := a.Progress ≤ b.Progress

/-- Total number of image-copy attempts of a list of entries. -/
def totalImagesLen (es : List EntryItem) : Nat :=
  (es.map (fun e => (entryImages e).length)).sum

/-- Total number of audio-copy attempts of a list of entries. -/
def totalAudioLen (es : List EntryItem) : Nat :=
  (es.map (fun e => (entryAudio e).length)).sum

/-- The status transitions the spec allows between consecutive persisted
records: staying put, pending to running, running to a terminal state. -/
def allowedStep (a b : String) : Prop :=
  a = b ∨ (a = "pending" ∧ b = "running") ∨
  (a = "running" ∧ b = "completed") ∨ (a = "running" ∧ b = "failed")

/-! ## The HTTP handlers that read the job record -/

/-- HTTP status codes the two read handlers can answer with. -/
inductive HTTPStatus where
  | ok
  | badRequest
  | unauthorized
  | forbidden
  | notFound
  | gone
  | internalError
  deriving DecidableEq

/-- Observable outcome of one handler call: the HTTP status answered, the
job records it persisted to Redis (in order), and the file it streamed, if
any. -/
structure HandlerOutcome where
  code : HTTPStatus
  writes : List ExportJobStatus
  servedFile : Option String
  deriving DecidableEq

/-- Embedding of `ExportProgress` (get_export_progress_handler.go).
`authUID` is the authenticated uid from the middleware context (`none` when
absent), `jobID` the `exportJobId` query parameter, `store` the record
found under that job id (`none` on a Redis miss).  On the success path the
handler re-persists the record it just loaded, unmodified, to refresh the
TTL. -/
def exportProgress (authUID : Option String) (jobID : String)
    (store : Option ExportJobStatus) : HandlerOutcome :=
  match authUID with
  | none => ⟨.unauthorized, [], none⟩
  | some uid =>
    if uid = "" then ⟨.internalError, [], none⟩
    else if jobID = "" then ⟨.badRequest, [], none⟩
    else
      match store with
      | none => ⟨.notFound, [], none⟩
      | some st =>
        if st.UID ≠ uid then ⟨.forbidden, [], none⟩
        else ⟨.ok, [st], none⟩

/-- Embedding of `DownloadExportedData`.  `fileExists` models `os.Stat`
on the archive path (`false` answers `os.IsNotExist`).  The handler never
writes the job record. -/
def downloadExportedData (authUID : Option String) (jobID : String)
    (store : Option ExportJobStatus) (fileExists : String → Bool) : HandlerOutcome :=
  match authUID with
  | none => ⟨.unauthorized, [], none⟩
  | some uid =>
    if uid = "" then ⟨.internalError, [], none⟩
    else if jobID = "" then ⟨.badRequest, [], none⟩
    else
      match store with
      | none => ⟨.notFound, [], none⟩
      | some st =>
        if st.UID ≠ uid then ⟨.forbidden, [], none⟩
        else if st.Status ≠ "completed" ∨ st.ZipPath = "" then ⟨.badRequest, [], none⟩
        else if ¬ fileExists st.ZipPath then ⟨.gone, [], none⟩
        else ⟨.ok, [], some st.ZipPath⟩

/-! ## General helper lemmas -/

/-- A string with a non-empty left part is non-empty; used for the
`fmt.Sprintf` error messages, all of which start with a non-empty literal. -/
theorem append_left_ne_empty (a b : String) (h : a ≠ "") : a ++ b ≠ "" := by
  intro hc
  apply h
  have hd := congrArg String.data hc
  rw [String.data_append] at hd
  exact String.ext (by simp [(List.append_eq_nil.mp hd).1])

/-- The last element of a list, defaulting to `a`, is `a` or a member. -/
theorem getLastD_eq_or_mem {α : Type} (l : List α) (a : α) :
    l.getLast?.getD a = a ∨ l.getLast?.getD a ∈ l := by
  cases l with
  | nil => left; rfl
  | cons b bs =>
      right
      rw [List.getLast?_eq_getLast _ (by simp), Option.getD_some]
      exact List.getLast_mem _

/-- Pushing a cons inside the defaulted last element. -/
theorem getLastD_cons {α : Type} (a b : α) (l : List α) :
    ((a :: l).getLast?.getD b) = l.getLast?.getD a := by
  cases l with
  | nil => rfl
  | cons c cs => rw [List.getLast?_cons_cons]; cases h : (c :: cs).getLast? <;> simp_all

/-- Appending the defaulted last element commutes with `++`. -/
theorem getLastD_append {α : Type} (l1 l2 : List α) (a : α) :
    ((l1 ++ l2).getLast?.getD a) = l2.getLast?.getD (l1.getLast?.getD a) := by
  induction l1 generalizing a with
  | nil => rfl
  | cons b bs ih => rw [List.cons_append, getLastD_cons, ih, getLastD_cons]

/-- Two chains compose when the second starts at the last vertex of the
first. -/
theorem chain_append_of {α : Type} (r : α → α → Prop) :
    ∀ (l1 l2 : List α) (a : α), List.Chain r a l1 →
      List.Chain r (l1.getLast?.getD a) l2 → List.Chain r a (l1 ++ l2) := by
  intro l1
  induction l1 with
  | nil => intro l2 a _ h2; simpa using h2
  | cons b bs ih =>
      intro l2 a h1 h2
      rcases h1 with _ | ⟨hab, hbs⟩
      exact List.Chain.cons hab (ih l2 b hbs (by rwa [getLastD_cons] at h2))

/-! ## The rounded double computation: specification and ordering -/

theorem nlog2F_spec : ∀ fuel n, 1 ≤ n → n ≤ fuel →
    2 ^ nlog2F fuel n ≤ n ∧ n < 2 ^ (nlog2F fuel n + 1) := by
  intro fuel
  induction fuel with
  | zero => intro n h1 h2; omega
  | succ fuel ih =>
      intro n h1 h2
      by_cases h : 2 ≤ n
      · have hm1 : 1 ≤ n / 2 := by omega
        have hm2 : n / 2 ≤ fuel := by omega
        obtain ⟨lo, hi⟩ := ih (n / 2) hm1 hm2
        have hstep : nlog2F (fuel + 1) n = nlog2F fuel (n / 2) + 1 := by
          simp [nlog2F, h]
        rw [hstep]
        constructor
        · rw [pow_succ]
          omega
        · rw [pow_succ]
          rw [pow_succ] at hi
          omega
      · have hn : n = 1 := by omega
        subst hn
        simp [nlog2F, h]

theorem nlog2_spec (n : Nat) (h : 1 ≤ n) :
    2 ^ nlog2 n ≤ n ∧ n < 2 ^ (nlog2 n + 1) :=
  nlog2F_spec n n h le_rfl

theorem floor_natCast_div (a b : Nat) (hb : 0 < b) :
    ⌊(a : ℚ) / (b : ℚ)⌋ = (a / b : Nat) := by
  have hbq : (0 : ℚ) < (b : ℚ) := by exact_mod_cast hb
  rw [Int.floor_eq_iff]
  constructor
  · rw [le_div_iff₀ hbq]
    push_cast
    exact_mod_cast Nat.div_mul_le_self a b
  · rw [div_lt_iff₀ hbq]
    push_cast
    have : a < (a / b + 1) * b := by
      have h1 := Nat.div_add_mod a b
      have h2 := Nat.mod_lt a hb
      nlinarith [Nat.div_add_mod a b]
    calc ((a : ℚ)) < (((a / b + 1) * b : Nat) : ℚ) := by exact_mod_cast this
    _ = ((a / b : Nat) + 1) * b := by push_cast; ring

theorem rneQ_bounds (x : ℚ) : ⌊x⌋ ≤ rneQ x ∧ rneQ x ≤ ⌊x⌋ + 1 := by
  unfold rneQ
  split_ifs <;> omega

theorem rneQ_mono {x y : ℚ} (h : x ≤ y) : rneQ x ≤ rneQ y := by
  rcases lt_or_eq_of_le (Int.floor_mono h) with hf | hf
  · have hx := (rneQ_bounds x).2
    have hy := (rneQ_bounds y).1
    omega
  · have hfr : Int.fract x ≤ Int.fract y := by
      unfold Int.fract
      rw [hf]
      linarith
    unfold rneQ
    rw [hf]
    split_ifs <;> first | omega | linarith

theorem fract_natCast_div (a b : Nat) (hb : 0 < b) :
    Int.fract ((a : ℚ) / b) = ((a % b : Nat) : ℚ) / b := by
  have hbq : (0 : ℚ) < (b : ℚ) := by exact_mod_cast hb
  have hmod : (b : ℚ) * ((a / b : Nat) : ℚ) + ((a % b : Nat) : ℚ) = (a : ℚ) := by
    exact_mod_cast Nat.div_add_mod a b
  unfold Int.fract
  rw [floor_natCast_div a b hb]
  rw [eq_div_iff hbq.ne', sub_mul, div_mul_cancel₀ _ hbq.ne']
  have hq : ((a : ℚ)) - ((a / b : Nat) : ℚ) * b = ((a % b : Nat) : ℚ) := by linarith [hmod]
  exact_mod_cast hq

theorem rneDiv_eq (a b : Nat) (hb : 0 < b) :
    (rneDiv a b : Int) = rneQ ((a : ℚ) / b) := by
  have hbq : (0 : ℚ) < (b : ℚ) := by exact_mod_cast hb
  have hfr := fract_natCast_div a b hb
  have hfl := floor_natCast_div a b hb
  have hlt : (Int.fract ((a : ℚ) / b) < 1/2) ↔ (2 * (a % b) < b) := by
    rw [hfr, div_lt_iff₀ hbq]
    constructor
    · intro h
      have h2 : ((2 * (a % b) : Nat) : ℚ) < (b : ℚ) := by push_cast; linarith
      exact_mod_cast h2
    · intro h
      have h2 : ((2 * (a % b) : Nat) : ℚ) < (b : ℚ) := by exact_mod_cast h
      push_cast at h2
      linarith
  have hgt : ((1:ℚ)/2 < Int.fract ((a : ℚ) / b)) ↔ (b < 2 * (a % b)) := by
    rw [hfr, lt_div_iff₀ hbq]
    constructor
    · intro h
      have h2 : (b : ℚ) < ((2 * (a % b) : Nat) : ℚ) := by push_cast; linarith
      exact_mod_cast h2
    · intro h
      have h2 : (b : ℚ) < ((2 * (a % b) : Nat) : ℚ) := by exact_mod_cast h
      push_cast at h2
      linarith
  have hpar : (⌊(a : ℚ) / b⌋ % 2 = 0) ↔ ((a / b) % 2 = 0) := by
    rw [hfl]
    omega
  simp only [rneDiv, rneQ]
  by_cases h1 : 2 * (a % b) < b
  · have h1q : Int.fract ((a : ℚ) / b) < 1/2 := hlt.mpr h1
    simp only [if_pos h1, if_pos h1q, hfl]
  · have h1q : ¬ Int.fract ((a : ℚ) / b) < 1/2 := fun hc => h1 (hlt.mp hc)
    by_cases h2 : b < 2 * (a % b)
    · have h2q : (1:ℚ)/2 < Int.fract ((a : ℚ) / b) := hgt.mpr h2
      simp only [if_neg h1, if_pos h2, if_neg h1q, if_pos h2q, hfl]
      push_cast
      ring
    · have h2q : ¬ (1:ℚ)/2 < Int.fract ((a : ℚ) / b) := fun hc => h2 (hgt.mp hc)
      by_cases h3 : (a / b) % 2 = 0
      · simp only [if_neg h1, if_neg h2, if_pos h3, if_neg h1q, if_neg h2q, hfl]
        rw [if_pos (show ((a / b : Nat) : Int) % 2 = 0 from by exact_mod_cast h3)]
      · simp only [if_neg h1, if_neg h2, if_neg h3, if_neg h1q, if_neg h2q, hfl]
        rw [if_neg (show ¬ ((a / b : Nat) : Int) % 2 = 0 from by omega)]
        push_cast
        ring

theorem qpow_pos (e : Int) : (0:ℚ) < (2:ℚ)^e := zpow_pos (by norm_num) e

theorem qpow_mono {a b : Int} (h : a ≤ b) : (2:ℚ)^a ≤ (2:ℚ)^b :=
  zpow_le_zpow_right₀ one_le_two h

theorem qpow_nonneg_eq {e : Int} (h : 0 ≤ e) :
    (2:ℚ)^e = ((2^e.toNat : Nat) : ℚ) := by
  have h1 : (2:ℚ)^e = (2:ℚ)^(e.toNat : ℕ) := by
    rw [← zpow_natCast (2:ℚ) e.toNat, Int.toNat_of_nonneg h]
  rw [h1]
  push_cast
  ring

theorem qpow_natCast_eq (n : Nat) : ((2^n : Nat) : ℚ) = (2:ℚ)^((n : Int)) := by
  rw [zpow_natCast]
  push_cast
  ring

theorem qpow_inv_cancel (e : Int) : (2:ℚ)^e * (2:ℚ)^(-e) = 1 := by
  rw [← zpow_add₀ (two_ne_zero) e (-e)]
  simp

theorem twoPowLeDiv_iff (p t : Nat) (ht : 0 < t) (e : Int) :
    twoPowLeDiv p t e = true ↔ (2:ℚ)^e ≤ (p:ℚ)/t := by
  have htq : (0:ℚ) < (t:ℚ) := by exact_mod_cast ht
  unfold twoPowLeDiv
  by_cases h : 0 ≤ e
  · rw [if_pos h, le_div_iff₀ htq, qpow_nonneg_eq h]
    simp only [decide_eq_true_eq]
    constructor
    · intro hh
      have hq : ((2^e.toNat * t : Nat) : ℚ) ≤ (p:ℚ) := by exact_mod_cast hh
      push_cast at hq ⊢
      linarith
    · intro hh
      push_cast at hh
      have hq : ((2^e.toNat * t : Nat) : ℚ) ≤ (p:ℚ) := by push_cast; linarith
      exact_mod_cast hq
  · rw [if_neg h]
    simp only [decide_eq_true_eq]
    have he : ((2^(-e).toNat : Nat) : ℚ) = (2:ℚ)^(-e) :=
      (qpow_nonneg_eq (by omega)).symm
    rw [le_div_iff₀ htq]
    constructor
    · intro hh
      have hq : (t:ℚ) ≤ ((2^(-e).toNat : Nat) : ℚ) * p := by exact_mod_cast hh
      rw [he] at hq
      have h2 := mul_le_mul_of_nonneg_left hq (le_of_lt (qpow_pos e))
      calc (2:ℚ)^e * t ≤ 2^e * (2^(-e) * p) := h2
      _ = p := by rw [← mul_assoc, qpow_inv_cancel, one_mul]
    · intro hh
      have h2 := mul_le_mul_of_nonneg_left hh (le_of_lt (qpow_pos (-e)))
      have hq : (t:ℚ) ≤ (2:ℚ)^(-e) * p := by
        calc (t:ℚ) = 2^(-e) * (2^e * t) := by
              rw [← mul_assoc, mul_comm ((2:ℚ)^(-e)), qpow_inv_cancel, one_mul]
        _ ≤ 2^(-e) * p := h2
      rw [← he] at hq
      exact_mod_cast hq

theorem flog2Div_spec (p t : Nat) (hp : 0 < p) (ht : 0 < t) :
    (2:ℚ)^(flog2Div p t) ≤ (p:ℚ)/t ∧ (p:ℚ)/t < (2:ℚ)^(flog2Div p t + 1) := by
  have htq : (0:ℚ) < (t:ℚ) := by exact_mod_cast ht
  obtain ⟨hp1, hp2⟩ := nlog2_spec p hp
  obtain ⟨ht1, ht2⟩ := nlog2_spec t ht
  have hp1q : ((2^(nlog2 p) : Nat) : ℚ) ≤ (p:ℚ) := by exact_mod_cast hp1
  have hp2q : (p:ℚ) < ((2^(nlog2 p + 1) : Nat) : ℚ) := by exact_mod_cast hp2
  have ht1q : ((2^(nlog2 t) : Nat) : ℚ) ≤ (t:ℚ) := by exact_mod_cast ht1
  have ht2q : (t:ℚ) < ((2^(nlog2 t + 1) : Nat) : ℚ) := by exact_mod_cast ht2
  have hcastp : ((2^(nlog2 p) : Nat) : ℚ) = (2:ℚ)^((nlog2 p : Int)) :=
    qpow_natCast_eq (nlog2 p)
  have hcastt : ((2^(nlog2 t) : Nat) : ℚ) = (2:ℚ)^((nlog2 t : Int)) :=
    qpow_natCast_eq (nlog2 t)
  have hcastp1 : ((2^(nlog2 p + 1) : Nat) : ℚ) = (2:ℚ)^((nlog2 p : Int) + 1) := by
    rw [qpow_natCast_eq (nlog2 p + 1)]
    norm_cast
  have hcastt1 : ((2^(nlog2 t + 1) : Nat) : ℚ) = (2:ℚ)^((nlog2 t : Int) + 1) := by
    rw [qpow_natCast_eq (nlog2 t + 1)]
    norm_cast
  have hup : (p:ℚ)/t < (2:ℚ)^(((nlog2 p : Int) - (nlog2 t : Int)) + 1) := by
    rw [div_lt_iff₀ htq]
    have step1 : (p:ℚ) < (2:ℚ)^((nlog2 p : Int) + 1) := by rw [← hcastp1]; exact hp2q
    have h3 : (2:ℚ)^((nlog2 t : Int)) ≤ (t:ℚ) := by rw [← hcastt]; exact ht1q
    have h4 := mul_le_mul_of_nonneg_left h3
      (le_of_lt (qpow_pos (((nlog2 p : Int) - (nlog2 t : Int)) + 1)))
    have step2 : (2:ℚ)^((nlog2 p : Int) + 1) ≤
        (2:ℚ)^(((nlog2 p : Int) - (nlog2 t : Int)) + 1) * t := by
      calc (2:ℚ)^((nlog2 p : Int) + 1)
          = (2:ℚ)^(((nlog2 p : Int) - (nlog2 t : Int)) + 1) * (2:ℚ)^((nlog2 t : Int)) := by
            rw [← zpow_add₀ (two_ne_zero)]
            congr 1
            ring
      _ ≤ (2:ℚ)^(((nlog2 p : Int) - (nlog2 t : Int)) + 1) * t := h4
    linarith
  have hlo : (2:ℚ)^(((nlog2 p : Int) - (nlog2 t : Int)) - 1) ≤ (p:ℚ)/t := by
    rw [le_div_iff₀ htq]
    have step1 : (2:ℚ)^((nlog2 p : Int)) ≤ (p:ℚ) := by rw [← hcastp]; exact hp1q
    have h3 : (t:ℚ) ≤ (2:ℚ)^((nlog2 t : Int) + 1) := by rw [← hcastt1]; exact le_of_lt ht2q
    have h4 := mul_le_mul_of_nonneg_left h3
      (le_of_lt (qpow_pos (((nlog2 p : Int) - (nlog2 t : Int)) - 1)))
    have step2 : (2:ℚ)^(((nlog2 p : Int) - (nlog2 t : Int)) - 1) * t ≤
        (2:ℚ)^((nlog2 p : Int)) := by
      calc (2:ℚ)^(((nlog2 p : Int) - (nlog2 t : Int)) - 1) * t
          ≤ (2:ℚ)^(((nlog2 p : Int) - (nlog2 t : Int)) - 1) * (2:ℚ)^((nlog2 t : Int) + 1) := h4
      _ = (2:ℚ)^((nlog2 p : Int)) := by
            rw [← zpow_add₀ (two_ne_zero)]
            congr 1
            ring
    linarith
  unfold flog2Div
  by_cases hb : twoPowLeDiv p t ((nlog2 p : Int) - (nlog2 t : Int)) = true
  · rw [if_pos hb]
    exact ⟨(twoPowLeDiv_iff p t ht _).mp hb, hup⟩
  · rw [if_neg hb]
    constructor
    · exact hlo
    · rw [show ((nlog2 p : Int) - (nlog2 t : Int)) - 1 + 1 =
          (nlog2 p : Int) - (nlog2 t : Int) by ring]
      have hn := (twoPowLeDiv_iff p t ht ((nlog2 p : Int) - (nlog2 t : Int))).not.mp hb
      linarith [lt_of_not_le hn]

theorem flog2_le_of_le {x y : ℚ} {a b : Int}
    (ha1 : (2:ℚ)^a ≤ x) (hb2 : y < (2:ℚ)^(b+1)) (hxy : x ≤ y) : a ≤ b := by
  by_contra h
  have hm : (2:ℚ)^(b+1) ≤ (2:ℚ)^a := qpow_mono (by omega)
  linarith

theorem sigDiv_eq (p t : Nat) (ht : 0 < t) (e : Int) :
    (sigDiv p t e : Int) = rneQ ((p:ℚ)/t * (2:ℚ)^((52:Int) - e)) := by
  have htq : (0:ℚ) < (t:ℚ) := by exact_mod_cast ht
  unfold sigDiv
  by_cases h : 0 ≤ 52 - e
  · rw [if_pos h, rneDiv_eq _ _ ht]
    congr 1
    rw [qpow_nonneg_eq h]
    push_cast
    ring
  · rw [if_neg h]
    have hm : 0 < t * 2 ^ (e - 52).toNat := by positivity
    rw [rneDiv_eq _ _ hm]
    congr 1
    have he : ((2^(e - 52).toNat : Nat) : ℚ) = (2:ℚ)^(e - 52) :=
      (qpow_nonneg_eq (by omega)).symm
    rw [show (52:Int) - e = -(e - 52) by ring, zpow_neg, ← he]
    have h2 : ((2^(e - 52).toNat : Nat) : ℚ) ≠ 0 := by positivity
    push_cast
    push_cast at h2
    field_simp

theorem rneQ_sig_bounds {x : ℚ} {e : Int}
    (h1 : (2:ℚ)^e ≤ x) (h2 : x < (2:ℚ)^(e+1)) :
    (2^52 : Int) ≤ rneQ (x * (2:ℚ)^((52:Int) - e)) ∧
      rneQ (x * (2:ℚ)^((52:Int) - e)) ≤ 2^53 := by
  have hr1 : (2:ℚ)^((52:Int)) ≤ x * (2:ℚ)^((52:Int) - e) := by
    calc (2:ℚ)^((52:Int)) = (2:ℚ)^e * (2:ℚ)^((52:Int) - e) := by
          rw [← zpow_add₀ (two_ne_zero)]
          congr 1
          ring
    _ ≤ x * (2:ℚ)^((52:Int) - e) :=
        mul_le_mul_of_nonneg_right h1 (le_of_lt (qpow_pos _))
  have hr2 : x * (2:ℚ)^((52:Int) - e) < (2:ℚ)^((53:Int)) := by
    calc x * (2:ℚ)^((52:Int) - e) < (2:ℚ)^(e+1) * (2:ℚ)^((52:Int) - e) :=
          mul_lt_mul_of_pos_right h2 (qpow_pos _)
    _ = (2:ℚ)^((53:Int)) := by
        rw [← zpow_add₀ (two_ne_zero)]
        congr 1
        ring
  have hc52 : (((2^52 : Int)) : ℚ) = (2:ℚ)^((52:Int)) := by
    push_cast
    rw [show ((52:Int)) = ((52:Nat) : Int) by norm_cast, zpow_natCast]
    norm_num
  have hc53 : (((2^53 : Int)) : ℚ) = (2:ℚ)^((53:Int)) := by
    push_cast
    rw [show ((53:Int)) = ((53:Nat) : Int) by norm_cast, zpow_natCast]
    norm_num
  obtain ⟨hb1, hb2⟩ := rneQ_bounds (x * (2:ℚ)^((52:Int) - e))
  constructor
  · have hfl : (2^52 : Int) ≤ ⌊x * (2:ℚ)^((52:Int) - e)⌋ := by
      rw [Int.le_floor, hc52]
      exact hr1
    omega
  · have hfl : ⌊x * (2:ℚ)^((52:Int) - e)⌋ < (2^53 : Int) := by
      rw [Int.floor_lt, hc53]
      exact hr2
    omega

theorem roundAt_bounds {x : ℚ} {e : Int}
    (h1 : (2:ℚ)^e ≤ x) (h2 : x < (2:ℚ)^(e+1)) :
    (2:ℚ)^e ≤ roundAt x e ∧ roundAt x e ≤ (2:ℚ)^(e+1) := by
  obtain ⟨hs1, hs2⟩ := rneQ_sig_bounds h1 h2
  have hs1q : ((2^52 : Int) : ℚ) ≤ ((rneQ (x * (2:ℚ)^((52:Int) - e)) : Int) : ℚ) := by
    exact_mod_cast hs1
  have hs2q : ((rneQ (x * (2:ℚ)^((52:Int) - e)) : Int) : ℚ) ≤ ((2^53 : Int) : ℚ) := by
    exact_mod_cast hs2
  have hc52 : (((2^52 : Int)) : ℚ) = (2:ℚ)^((52:Int)) := by
    push_cast
    rw [show ((52:Int)) = ((52:Nat) : Int) by norm_cast, zpow_natCast]
    norm_num
  have hc53 : (((2^53 : Int)) : ℚ) = (2:ℚ)^((53:Int)) := by
    push_cast
    rw [show ((53:Int)) = ((53:Nat) : Int) by norm_cast, zpow_natCast]
    norm_num
  unfold roundAt
  constructor
  · calc (2:ℚ)^e = (2:ℚ)^((52:Int)) * (2:ℚ)^(e - 52) := by
          rw [← zpow_add₀ (two_ne_zero)]
          congr 1
          ring
    _ ≤ ((rneQ (x * (2:ℚ)^((52:Int) - e)) : Int) : ℚ) * (2:ℚ)^(e - 52) := by
          rw [← hc52]
          exact mul_le_mul_of_nonneg_right hs1q (le_of_lt (qpow_pos _))
  · calc ((rneQ (x * (2:ℚ)^((52:Int) - e)) : Int) : ℚ) * (2:ℚ)^(e - 52)
        ≤ ((2^53 : Int) : ℚ) * (2:ℚ)^(e - 52) :=
          mul_le_mul_of_nonneg_right hs2q (le_of_lt (qpow_pos _))
    _ = (2:ℚ)^(e+1) := by
          rw [hc53, ← zpow_add₀ (two_ne_zero)]
          congr 1
          ring

theorem roundAt_mono {x y : ℚ} {e f : Int}
    (hx1 : (2:ℚ)^e ≤ x) (hx2 : x < (2:ℚ)^(e+1))
    (hy1 : (2:ℚ)^f ≤ y) (hy2 : y < (2:ℚ)^(f+1))
    (hxy : x ≤ y) : roundAt x e ≤ roundAt y f := by
  have hef : e ≤ f := flog2_le_of_le hx1 hy2 hxy
  rcases eq_or_lt_of_le hef with rfl | hlt
  · unfold roundAt
    have hm := rneQ_mono (mul_le_mul_of_nonneg_right hxy (le_of_lt (qpow_pos ((52:Int) - e))))
    have hmq : ((rneQ (x * (2:ℚ)^((52:Int) - e)) : Int) : ℚ) ≤
        ((rneQ (y * (2:ℚ)^((52:Int) - e)) : Int) : ℚ) := by exact_mod_cast hm
    exact mul_le_mul_of_nonneg_right hmq (le_of_lt (qpow_pos _))
  · have hb1 := (roundAt_bounds hx1 hx2).2
    have hb2 := (roundAt_bounds hy1 hy2).1
    have hq := qpow_mono (by omega : e + 1 ≤ f)
    linarith

theorem sigDiv_lower (p t : Nat) (hp : 0 < p) (ht : 0 < t) :
    2^52 ≤ sigDiv p t (flog2Div p t) := by
  obtain ⟨h1, h2⟩ := flog2Div_spec p t hp ht
  have hs := (rneQ_sig_bounds h1 h2).1
  rw [← sigDiv_eq p t ht] at hs
  exact_mod_cast hs

theorem prod_pos (p t : Nat) (hp : 0 < p) (ht : 0 < t) :
    1 ≤ 100 * sigDiv p t (flog2Div p t) := by
  calc (1:Nat) ≤ 2^52 := Nat.one_le_pow _ _ (by norm_num)
  _ ≤ sigDiv p t (flog2Div p t) := sigDiv_lower p t hp ht
  _ ≤ 100 * sigDiv p t (flog2Div p t) := Nat.le_mul_of_pos_left _ (by norm_num)

theorem prodX_eq (p t : Nat) (ht : 0 < t) :
    100 * roundAt ((p:ℚ)/t) (flog2Div p t) =
      ((100 * sigDiv p t (flog2Div p t) : Nat) : ℚ) * (2:ℚ)^(flog2Div p t - 52) := by
  unfold roundAt
  rw [← sigDiv_eq p t ht]
  push_cast
  ring

theorem prod_binade (p t : Nat) (hp : 0 < p) (ht : 0 < t) :
    (2:ℚ)^((nlog2 (100 * sigDiv p t (flog2Div p t)) : Int) + flog2Div p t - 52) ≤
        100 * roundAt ((p:ℚ)/t) (flog2Div p t) ∧
      100 * roundAt ((p:ℚ)/t) (flog2Div p t) <
        (2:ℚ)^(((nlog2 (100 * sigDiv p t (flog2Div p t)) : Int) + flog2Div p t - 52) + 1) := by
  obtain ⟨hk1, hk2⟩ := nlog2_spec _ (prod_pos p t hp ht)
  rw [prodX_eq p t ht]
  constructor
  · calc (2:ℚ)^((nlog2 (100 * sigDiv p t (flog2Div p t)) : Int) + flog2Div p t - 52)
        = ((2^(nlog2 (100 * sigDiv p t (flog2Div p t))) : Nat) : ℚ) *
            (2:ℚ)^(flog2Div p t - 52) := by
          rw [qpow_natCast_eq, ← zpow_add₀ two_ne_zero]
          congr 1
          ring
    _ ≤ ((100 * sigDiv p t (flog2Div p t) : Nat) : ℚ) * (2:ℚ)^(flog2Div p t - 52) :=
          mul_le_mul_of_nonneg_right (by exact_mod_cast hk1) (le_of_lt (qpow_pos _))
  · calc ((100 * sigDiv p t (flog2Div p t) : Nat) : ℚ) * (2:ℚ)^(flog2Div p t - 52)
        < ((2^(nlog2 (100 * sigDiv p t (flog2Div p t)) + 1) : Nat) : ℚ) *
            (2:ℚ)^(flog2Div p t - 52) :=
          mul_lt_mul_of_pos_right (by exact_mod_cast hk2) (qpow_pos _)
    _ = (2:ℚ)^(((nlog2 (100 * sigDiv p t (flog2Div p t)) : Int) + flog2Div p t - 52) + 1) := by
          rw [qpow_natCast_eq, ← zpow_add₀ two_ne_zero]
          congr 1
          push_cast
          ring

theorem nlog2_prod_ge (p t : Nat) (hp : 0 < p) (ht : 0 < t) :
    58 ≤ nlog2 (100 * sigDiv p t (flog2Div p t)) := by
  obtain ⟨hk1, hk2⟩ := nlog2_spec _ (prod_pos p t hp ht)
  by_contra hc
  push_neg at hc
  have hle : (2:Nat)^(nlog2 (100 * sigDiv p t (flog2Div p t)) + 1) ≤ 2^58 :=
    Nat.pow_le_pow_right (by norm_num) (by omega)
  have hlt : 100 * sigDiv p t (flog2Div p t) < 2^58 := lt_of_lt_of_le hk2 hle
  have hge : 100 * 2^52 ≤ 100 * sigDiv p t (flog2Div p t) :=
    Nat.mul_le_mul_left 100 (sigDiv_lower p t hp ht)
  have hlit : (2:Nat)^58 ≤ 100 * 2^52 := by norm_num
  exact absurd (lt_of_le_of_lt (le_trans hlit hge) hlt) (lt_irrefl _)

theorem truncFloatPct_eq (p t : Nat) (hp : 0 < p) (ht : 0 < t) :
    (truncFloatPct p t : Int) =
      ⌊roundAt (100 * roundAt ((p:ℚ)/t) (flog2Div p t))
        ((nlog2 (100 * sigDiv p t (flog2Div p t)) : Int) + flog2Div p t - 52)⌋ := by
  have hk58 := nlog2_prod_ge p t hp ht
  have hn2 : (rneDiv (100 * sigDiv p t (flog2Div p t))
        (2^(nlog2 (100 * sigDiv p t (flog2Div p t)) - 52)) : Int) =
      rneQ ((100 * roundAt ((p:ℚ)/t) (flog2Div p t)) *
        (2:ℚ)^((52:Int) - ((nlog2 (100 * sigDiv p t (flog2Div p t)) : Int) +
          flog2Div p t - 52))) := by
    rw [rneDiv_eq _ _ (by positivity)]
    congr 1
    rw [prodX_eq p t ht]
    have hc : ((2^(nlog2 (100 * sigDiv p t (flog2Div p t)) - 52) : Nat) : ℚ) =
        (2:ℚ)^((nlog2 (100 * sigDiv p t (flog2Div p t)) : Int) - 52) := by
      rw [qpow_natCast_eq]
      congr 1
      omega
    rw [hc, div_eq_mul_inv, ← zpow_neg, mul_assoc, ← zpow_add₀ two_ne_zero]
    congr 1
    ring_nf
  have hRHS : roundAt (100 * roundAt ((p:ℚ)/t) (flog2Div p t))
      ((nlog2 (100 * sigDiv p t (flog2Div p t)) : Int) + flog2Div p t - 52) =
      ((rneDiv (100 * sigDiv p t (flog2Div p t))
        (2^(nlog2 (100 * sigDiv p t (flog2Div p t)) - 52)) : Nat) : ℚ) *
      (2:ℚ)^(((nlog2 (100 * sigDiv p t (flog2Div p t)) : Int) + flog2Div p t - 52) - 52) := by
    rw [roundAt, ← hn2]
    norm_cast
  rw [hRHS]
  simp only [truncFloatPct, if_neg (Nat.pos_iff_ne_zero.mp hp)]
  have hs2 : (flog2Div p t - 52) +
      (((nlog2 (100 * sigDiv p t (flog2Div p t)) - 52 : Nat)) : Int) =
      ((nlog2 (100 * sigDiv p t (flog2Div p t)) : Int) + flog2Div p t - 52) - 52 := by
    omega
  rw [hs2]
  by_cases hcase : 0 ≤ ((nlog2 (100 * sigDiv p t (flog2Div p t)) : Int) + flog2Div p t - 52) - 52
  · rw [if_pos hcase]
    have hval : ((rneDiv (100 * sigDiv p t (flog2Div p t))
          (2^(nlog2 (100 * sigDiv p t (flog2Div p t)) - 52)) : Nat) : ℚ) *
        (2:ℚ)^(((nlog2 (100 * sigDiv p t (flog2Div p t)) : Int) + flog2Div p t - 52) - 52) =
        ((rneDiv (100 * sigDiv p t (flog2Div p t))
          (2^(nlog2 (100 * sigDiv p t (flog2Div p t)) - 52)) *
          2^((((nlog2 (100 * sigDiv p t (flog2Div p t)) : Int) +
            flog2Div p t - 52) - 52).toNat) : Nat) : ℚ) := by
      rw [qpow_nonneg_eq hcase]
      push_cast
      ring
    rw [hval, Int.floor_natCast]
  · rw [if_neg hcase]
    have hmpos : (0:Nat) < 2^((-(((nlog2 (100 * sigDiv p t (flog2Div p t)) : Int) +
        flog2Div p t - 52) - 52)).toNat) := by positivity
    have hval : ((rneDiv (100 * sigDiv p t (flog2Div p t))
          (2^(nlog2 (100 * sigDiv p t (flog2Div p t)) - 52)) : Nat) : ℚ) *
        (2:ℚ)^(((nlog2 (100 * sigDiv p t (flog2Div p t)) : Int) + flog2Div p t - 52) - 52) =
        ((rneDiv (100 * sigDiv p t (flog2Div p t))
          (2^(nlog2 (100 * sigDiv p t (flog2Div p t)) - 52)) : Nat) : ℚ) /
        ((2^((-(((nlog2 (100 * sigDiv p t (flog2Div p t)) : Int) +
          flog2Div p t - 52) - 52)).toNat) : Nat) : ℚ) := by
      conv_lhs => rw [show (((nlog2 (100 * sigDiv p t (flog2Div p t)) : Int) +
          flog2Div p t - 52) - 52) =
          -(-(((nlog2 (100 * sigDiv p t (flog2Div p t)) : Int) + flog2Div p t - 52) - 52))
          from by ring]
      rw [zpow_neg, qpow_nonneg_eq (by omega :
        (0:Int) ≤ -((((nlog2 (100 * sigDiv p t (flog2Div p t)) : Int) + flog2Div p t - 52) - 52)))]
      rw [div_eq_mul_inv]
    rw [hval, floor_natCast_div _ _ hmpos]

theorem truncFloatPct_mono {p q t : Nat} (ht : 0 < t) (h : p ≤ q) :
    truncFloatPct p t ≤ truncFloatPct q t := by
  rcases Nat.eq_zero_or_pos p with rfl | hp
  · simp [truncFloatPct]
  · have hq : 0 < q := lt_of_lt_of_le hp h
    have e1 := truncFloatPct_eq p t hp ht
    have e2 := truncFloatPct_eq q t hq ht
    have htq : (0:ℚ) < (t:ℚ) := by exact_mod_cast ht
    have hpq : (p:ℚ) ≤ (q:ℚ) := by exact_mod_cast h
    have hdiv : (p:ℚ)/t ≤ (q:ℚ)/t := by gcongr
    obtain ⟨hpd1, hpd2⟩ := flog2Div_spec p t hp ht
    obtain ⟨hqd1, hqd2⟩ := flog2Div_spec q t hq ht
    have hstep1 : roundAt ((p:ℚ)/t) (flog2Div p t) ≤ roundAt ((q:ℚ)/t) (flog2Div q t) :=
      roundAt_mono hpd1 hpd2 hqd1 hqd2 hdiv
    have hstep1' : 100 * roundAt ((p:ℚ)/t) (flog2Div p t) ≤
        100 * roundAt ((q:ℚ)/t) (flog2Div q t) := by linarith
    obtain ⟨hpb1, hpb2⟩ := prod_binade p t hp ht
    obtain ⟨hqb1, hqb2⟩ := prod_binade q t hq ht
    have hstep2 := roundAt_mono hpb1 hpb2 hqb1 hqb2 hstep1'
    have hfl := Int.floor_mono hstep2
    rw [← e1, ← e2] at hfl
    exact_mod_cast hfl

/-! ## Facts about the progress accounting -/

/-- The code's progress value never exceeds 100. -/
theorem accOf_le_100 (st : ExportJobStatus) : accOf st ≤ 100 := by
  unfold accOf
  split_ifs <;> omega

/-- The code's progress value is monotone in the processed counters for
fixed totals. -/
theorem accOf_mono {st st' : ExportJobStatus}
    (ht : sumTotals st' = sumTotals st) (hp : sumProcessed st ≤ sumProcessed st') :
    accOf st ≤ accOf st' := by
  unfold accOf
  rw [ht]
  by_cases h0 : sumTotals st = 0
  · rw [if_pos h0, if_pos h0]
  · have hd : truncFloatPct (sumProcessed st) (sumTotals st) ≤
        truncFloatPct (sumProcessed st') (sumTotals st) :=
      truncFloatPct_mono (Nat.pos_of_ne_zero h0) hp
    split_ifs <;> omega

/-- `recalculateAndPersistProgress` writes exactly the accounting of the
record's own counters into `Progress` and touches nothing else. -/
theorem recalcProgress_eq (st : ExportJobStatus) :
    recalcProgress st = { st with Progress := accOf st } := by
  simp only [recalcProgress, accOf, sumTotals, sumProcessed]
  split_ifs <;> rfl

/-- The accounting ignores the stored progress value. -/
theorem accOf_set_progress (st : ExportJobStatus) (p : Nat) :
    accOf { st with Progress := p } = accOf st := rfl

/-- `frameAgree` is reflexive. -/
theorem frameAgree_refl (st : ExportJobStatus) : frameAgree st st :=
  ⟨rfl, rfl, rfl, rfl, rfl, rfl, rfl, rfl, rfl, rfl⟩

/-- `frameAgree` composes. -/
theorem frameAgree_trans {st st1 w : ExportJobStatus}
    (h1 : frameAgree st st1) (h2 : frameAgree st1 w) : frameAgree st w := by
  obtain ⟨a1, b1, c1, d1, e1, f1, g1, t1, i1, j1⟩ := h1
  obtain ⟨a2, b2, c2, d2, e2, f2, g2, t2, i2, j2⟩ := h2
  exact ⟨a2.trans a1, b2.trans b1, c2.trans c1, d2.trans d1, e2.trans e1, f2.trans f1,
    g2.trans g1, t2.trans t1, i2.trans i1, j2.trans j1⟩

/-- A write whose frame agrees with an intermediate state whose frame
agrees with the base also agrees with the base. -/
theorem writeFrame_trans {st st1 w : ExportJobStatus}
    (h1 : frameAgree st st1) (h2 : writeFrame st1 w) : writeFrame st w :=
  ⟨frameAgree_trans h1 h2.1, h2.2⟩

/-- The image-loop step record: frame preserved, progress refreshed. -/
theorem writeFrame_bumpI (st : ExportJobStatus) :
    writeFrame st (recalcProgress { st with ProcessedImages := st.ProcessedImages + 1 }) := by
  rw [recalcProgress_eq]
  exact ⟨⟨rfl, rfl, rfl, rfl, rfl, rfl, rfl, rfl, rfl, rfl⟩, rfl⟩

/-- The audio-loop step record: frame preserved, progress refreshed. -/
theorem writeFrame_bumpA (st : ExportJobStatus) :
    writeFrame st (recalcProgress { st with ProcessedAudio := st.ProcessedAudio + 1 }) := by
  rw [recalcProgress_eq]
  exact ⟨⟨rfl, rfl, rfl, rfl, rfl, rfl, rfl, rfl, rfl, rfl⟩, rfl⟩

/-- The entry-loop step record: frame preserved, progress refreshed. -/
theorem writeFrame_bumpE (st : ExportJobStatus) :
    writeFrame st (recalcProgress { st with ProcessedEntries := st.ProcessedEntries + 1 }) := by
  rw [recalcProgress_eq]
  exact ⟨⟨rfl, rfl, rfl, rfl, rfl, rfl, rfl, rfl, rfl, rfl⟩, rfl⟩

/-! ## The image loop -/

/-- Full characterisation of the image-copy loop: its success flag is the
conjunction of the row scans (copies are irrelevant), every persisted
record keeps the frame and carries the accounting of its own counters, on
success the final state is the last persisted record with the image
counter advanced by the number of attempted rows, and on failure the final
state is the last persisted record marked failed with a non-empty error. -/
theorem processImages_spec (l : List MediaItem) (st : ExportJobStatus) :
    ((processImages l st).1 = l.all mediaOkB) ∧
    (∀ w ∈ (processImages l st).2.2, writeFrame st w) ∧
    ((processImages l st).1 = true →
      (processImages l st).2.1 = ((processImages l st).2.2).getLast?.getD st ∧
      (processImages l st).2.1.ProcessedImages = st.ProcessedImages + l.length ∧
      (processImages l st).2.1.ProcessedEntries = st.ProcessedEntries ∧
      (processImages l st).2.1.ProcessedAudio = st.ProcessedAudio) ∧
    ((processImages l st).1 = false →
      ∃ msg, msg ≠ "" ∧
        (processImages l st).2.1 = failSt (((processImages l st).2.2).getLast?.getD st) msg) := by
  induction l generalizing st with
  | nil =>
      refine ⟨rfl, ?_, ?_, ?_⟩
      · intro w hw; cases hw
      · intro _; exact ⟨rfl, rfl, rfl, rfl⟩
      · intro h; simp [processImages] at h
  | cons m ms ih =>
      rcases hm : m.scanRes with e | u
      · refine ⟨?_, ?_, ?_, ?_⟩
        · simp [processImages, hm, mediaOkB, exceptOk]
        · intro w hw; simp [processImages, hm] at hw
        · intro h; simp [processImages, hm] at h
        · intro _
          refine ⟨"failed to scan image: " ++ e, append_left_ne_empty _ _ (by decide), ?_⟩
          simp [processImages, hm]
      · obtain ⟨ih1, ih2, ih3, ih4⟩ :=
          ih (recalcProgress { st with ProcessedImages := st.ProcessedImages + 1 })
        have hfr : frameAgree st
            (recalcProgress { st with ProcessedImages := st.ProcessedImages + 1 }) :=
          (writeFrame_bumpI st).1
        refine ⟨?_, ?_, ?_, ?_⟩
        · simpa [processImages, hm, mediaOkB, exceptOk] using ih1
        · intro w hw
          simp only [processImages, hm] at hw
          rcases List.mem_cons.mp hw with h | h
          · exact h ▸ writeFrame_bumpI st
          · exact writeFrame_trans hfr (ih2 w h)
        · intro h
          simp only [processImages, hm] at h ⊢
          obtain ⟨hlast, hpi, hpe, hpa⟩ := ih3 h
          refine ⟨?_, ?_, ?_, ?_⟩
          · rw [getLastD_cons]; exact hlast
          · rw [hpi, recalcProgress_eq]; simp; omega
          · rw [hpe, recalcProgress_eq]
          · rw [hpa, recalcProgress_eq]
        · intro h
          simp only [processImages, hm] at h ⊢
          obtain ⟨msg, hne, heq⟩ := ih4 h
          exact ⟨msg, hne, by rw [getLastD_cons]; exact heq⟩

/-- Full characterisation of the audio-copy loop (mirror of
`processImages_spec`). -/
theorem processAudio_spec (l : List MediaItem) (st : ExportJobStatus) :
    ((processAudio l st).1 = l.all mediaOkB) ∧
    (∀ w ∈ (processAudio l st).2.2, writeFrame st w) ∧
    ((processAudio l st).1 = true →
      (processAudio l st).2.1 = ((processAudio l st).2.2).getLast?.getD st ∧
      (processAudio l st).2.1.ProcessedAudio = st.ProcessedAudio + l.length ∧
      (processAudio l st).2.1.ProcessedEntries = st.ProcessedEntries ∧
      (processAudio l st).2.1.ProcessedImages = st.ProcessedImages) ∧
    ((processAudio l st).1 = false →
      ∃ msg, msg ≠ "" ∧
        (processAudio l st).2.1 = failSt (((processAudio l st).2.2).getLast?.getD st) msg) := by
  induction l generalizing st with
  | nil =>
      refine ⟨rfl, ?_, ?_, ?_⟩
      · intro w hw; cases hw
      · intro _; exact ⟨rfl, rfl, rfl, rfl⟩
      · intro h; simp [processAudio] at h
  | cons m ms ih =>
      rcases hm : m.scanRes with e | u
      · refine ⟨?_, ?_, ?_, ?_⟩
        · simp [processAudio, hm, mediaOkB, exceptOk]
        · intro w hw; simp [processAudio, hm] at hw
        · intro h; simp [processAudio, hm] at h
        · intro _
          refine ⟨"failed to scan audio: " ++ e, append_left_ne_empty _ _ (by decide), ?_⟩
          simp [processAudio, hm]
      · obtain ⟨ih1, ih2, ih3, ih4⟩ :=
          ih (recalcProgress { st with ProcessedAudio := st.ProcessedAudio + 1 })
        have hfr : frameAgree st
            (recalcProgress { st with ProcessedAudio := st.ProcessedAudio + 1 }) :=
          (writeFrame_bumpA st).1
        refine ⟨?_, ?_, ?_, ?_⟩
        · simpa [processAudio, hm, mediaOkB, exceptOk] using ih1
        · intro w hw
          simp only [processAudio, hm] at hw
          rcases List.mem_cons.mp hw with h | h
          · exact h ▸ writeFrame_bumpA st
          · exact writeFrame_trans hfr (ih2 w h)
        · intro h
          simp only [processAudio, hm] at h ⊢
          obtain ⟨hlast, hpa, hpe, hpi⟩ := ih3 h
          refine ⟨?_, ?_, ?_, ?_⟩
          · rw [getLastD_cons]; exact hlast
          · rw [hpa, recalcProgress_eq]; simp; omega
          · rw [hpe, recalcProgress_eq]
          · rw [hpi, recalcProgress_eq]
        · intro h
          simp only [processAudio, hm] at h ⊢
          obtain ⟨msg, hne, heq⟩ := ih4 h
          exact ⟨msg, hne, by rw [getLastD_cons]; exact heq⟩

/-- Progress never decreases across an image-loop step. -/
theorem progLE_bumpI (st : ExportJobStatus) (h : st.Progress ≤ accOf st) :
    progLE st (recalcProgress { st with ProcessedImages := st.ProcessedImages + 1 }) := by
  unfold progLE
  rw [recalcProgress_eq]
  show st.Progress ≤ accOf { st with ProcessedImages := st.ProcessedImages + 1 }
  refine le_trans h (accOf_mono rfl ?_)
  show st.ProcessedEntries + st.ProcessedImages + st.ProcessedAudio ≤
    st.ProcessedEntries + (st.ProcessedImages + 1) + st.ProcessedAudio
  omega

/-- Progress never decreases across an audio-loop step. -/
theorem progLE_bumpA (st : ExportJobStatus) (h : st.Progress ≤ accOf st) :
    progLE st (recalcProgress { st with ProcessedAudio := st.ProcessedAudio + 1 }) := by
  unfold progLE
  rw [recalcProgress_eq]
  show st.Progress ≤ accOf { st with ProcessedAudio := st.ProcessedAudio + 1 }
  refine le_trans h (accOf_mono rfl ?_)
  show st.ProcessedEntries + st.ProcessedImages + st.ProcessedAudio ≤
    st.ProcessedEntries + st.ProcessedImages + (st.ProcessedAudio + 1)
  omega

/-- Progress never decreases across an entry-loop step. -/
theorem progLE_bumpE (st : ExportJobStatus) (h : st.Progress ≤ accOf st) :
    progLE st (recalcProgress { st with ProcessedEntries := st.ProcessedEntries + 1 }) := by
  unfold progLE
  rw [recalcProgress_eq]
  show st.Progress ≤ accOf { st with ProcessedEntries := st.ProcessedEntries + 1 }
  refine le_trans h (accOf_mono rfl ?_)
  show st.ProcessedEntries + st.ProcessedImages + st.ProcessedAudio ≤
    (st.ProcessedEntries + 1) + st.ProcessedImages + st.ProcessedAudio
  omega

/-- The image loop emits a non-decreasing progress chain ending in its
final state, and its final state still satisfies the progress bound. -/
theorem processImages_chain (l : List MediaItem) (st : ExportJobStatus)
    (h : st.Progress ≤ accOf st) :
    List.Chain progLE st ((processImages l st).2.2 ++ [(processImages l st).2.1]) ∧
    (processImages l st).2.1.Progress ≤ accOf (processImages l st).2.1 := by
  induction l generalizing st with
  | nil => exact ⟨List.Chain.cons (le_refl _) List.Chain.nil, h⟩
  | cons m ms ih =>
      rcases hm : m.scanRes with e | u
      · refine ⟨?_, ?_⟩
        · simp only [processImages, hm, List.nil_append]
          exact List.Chain.cons (le_of_eq rfl) List.Chain.nil
        · simpa only [processImages, hm] using h
      · have hstep := progLE_bumpI st h
        have hinv : (recalcProgress { st with
            ProcessedImages := st.ProcessedImages + 1 }).Progress ≤
            accOf (recalcProgress { st with ProcessedImages := st.ProcessedImages + 1 }) := by
          rw [recalcProgress_eq]
          exact le_of_eq rfl
        obtain ⟨ihc, ihb⟩ :=
          ih (recalcProgress { st with ProcessedImages := st.ProcessedImages + 1 }) hinv
        refine ⟨?_, by simpa only [processImages, hm] using ihb⟩
        simp only [processImages, hm, List.cons_append]
        exact List.Chain.cons hstep ihc

/-- The audio loop emits a non-decreasing progress chain ending in its
final state, and its final state still satisfies the progress bound. -/
theorem processAudio_chain (l : List MediaItem) (st : ExportJobStatus)
    (h : st.Progress ≤ accOf st) :
    List.Chain progLE st ((processAudio l st).2.2 ++ [(processAudio l st).2.1]) ∧
    (processAudio l st).2.1.Progress ≤ accOf (processAudio l st).2.1 := by
  induction l generalizing st with
  | nil => exact ⟨List.Chain.cons (le_refl _) List.Chain.nil, h⟩
  | cons m ms ih =>
      rcases hm : m.scanRes with e | u
      · refine ⟨?_, ?_⟩
        · simp only [processAudio, hm, List.nil_append]
          exact List.Chain.cons (le_of_eq rfl) List.Chain.nil
        · simpa only [processAudio, hm] using h
      · have hstep := progLE_bumpA st h
        have hinv : (recalcProgress { st with
            ProcessedAudio := st.ProcessedAudio + 1 }).Progress ≤
            accOf (recalcProgress { st with ProcessedAudio := st.ProcessedAudio + 1 }) := by
          rw [recalcProgress_eq]
          exact le_of_eq rfl
        obtain ⟨ihc, ihb⟩ :=
          ih (recalcProgress { st with ProcessedAudio := st.ProcessedAudio + 1 }) hinv
        refine ⟨?_, by simpa only [processAudio, hm] using ihb⟩
        simp only [processAudio, hm, List.cons_append]
        exact List.Chain.cons hstep ihc

/-! ## The entry loop -/

/-- `fetchTagsJSON` never returns an error: a failed tags query or row
scan is swallowed (the function returns `"[]"` resp. skips the row). -/
theorem fetchTagsJSON_is_ok (r : Except String (List TagItem)) :
    ∃ s, fetchTagsJSON r = .ok s := by
  cases r <;> exact ⟨_, rfl⟩

/-- `fetchLocationsJSON` never returns an error. -/
theorem fetchLocationsJSON_is_ok (r : Except String (List LocationItem)) :
    ∃ s, fetchLocationsJSON r = .ok s := by
  cases r <;> exact ⟨_, rfl⟩

/-- The defaulted last write of a loop keeps the frame of the base state. -/
theorem frameAgree_getLastD {st : ExportJobStatus} {ws : List ExportJobStatus}
    (h : ∀ w ∈ ws, writeFrame st w) : frameAgree st (ws.getLast?.getD st) := by
  rcases getLastD_eq_or_mem ws st with he | hm
  · rw [he]; exact frameAgree_refl st
  · exact (h _ hm).1

/-- Counter fields of the entry-loop step record. -/
theorem bumpE_counters (st : ExportJobStatus) :
    (recalcProgress { st with
        ProcessedEntries := st.ProcessedEntries + 1 }).ProcessedEntries =
      st.ProcessedEntries + 1 ∧
    (recalcProgress { st with
        ProcessedEntries := st.ProcessedEntries + 1 }).ProcessedImages =
      st.ProcessedImages ∧
    (recalcProgress { st with
        ProcessedEntries := st.ProcessedEntries + 1 }).ProcessedAudio =
      st.ProcessedAudio := by
  rw [recalcProgress_eq]
  exact ⟨rfl, rfl, rfl⟩

/-- Full characterisation of one entry iteration, mirroring the media-loop
characterisations: the success flag equals `entryOkB`, all writes keep the
frame and carry their own accounting, on success the counters advance by
one entry plus all attempted media, on failure the final state is the last
write marked failed with a non-empty error. -/
theorem processEntry_spec (e : EntryItem) (st : ExportJobStatus) :
    ((processEntry e st).1 = entryOkB e) ∧
    (∀ w ∈ (processEntry e st).2.2, writeFrame st w) ∧
    ((processEntry e st).1 = true →
      (processEntry e st).2.1 = ((processEntry e st).2.2).getLast?.getD st ∧
      (processEntry e st).2.1.ProcessedEntries = st.ProcessedEntries + 1 ∧
      (processEntry e st).2.1.ProcessedImages = st.ProcessedImages + (entryImages e).length ∧
      (processEntry e st).2.1.ProcessedAudio = st.ProcessedAudio + (entryAudio e).length) ∧
    ((processEntry e st).1 = false →
      ∃ msg, msg ≠ "" ∧
        (processEntry e st).2.1 = failSt (((processEntry e st).2.2).getLast?.getD st) msg) := by
  rcases hscan : e.scanRes with esc | u
  · refine ⟨?_, ?_, ?_, ?_⟩
    · simp [processEntry, hscan, entryOkB, exceptOk]
    · intro w hw; simp [processEntry, hscan] at hw
    · intro h; simp [processEntry, hscan] at h
    · intro _
      refine ⟨"failed to scan entry: " ++ esc, append_left_ne_empty _ _ (by decide), ?_⟩
      simp [processEntry, hscan]
  · obtain ⟨ts, hts⟩ := fetchTagsJSON_is_ok e.tagsRes
    obtain ⟨ls, hls⟩ := fetchLocationsJSON_is_ok e.locationsRes
    rcases himg : e.imagesRes with eim | imgs
    · refine ⟨?_, ?_, ?_, ?_⟩
      · simp [processEntry, hscan, hts, hls, himg, entryOkB, exceptOk]
      · intro w hw
        simp only [processEntry, hscan, hts, hls, himg] at hw
        simp only [List.mem_singleton] at hw
        exact hw ▸ writeFrame_bumpE st
      · intro h; simp [processEntry, hscan, hts, hls, himg] at h
      · intro _
        refine ⟨"failed to fetch images: " ++ eim, append_left_ne_empty _ _ (by decide), ?_⟩
        simp only [processEntry, hscan, hts, hls, himg]
        rw [getLastD_cons]
        rfl
    · obtain ⟨pi1, pi2, pi3, pi4⟩ :=
        processImages_spec imgs (recalcProgress { st with
          ProcessedEntries := st.ProcessedEntries + 1 })
      rcases hpi : processImages imgs (recalcProgress { st with
          ProcessedEntries := st.ProcessedEntries + 1 }) with ⟨ok1, stA, ws1⟩
      rw [hpi] at pi1 pi2 pi3 pi4
      simp only at pi1 pi2 pi3 pi4
      have hfr1 : frameAgree st (recalcProgress { st with
          ProcessedEntries := st.ProcessedEntries + 1 }) := (writeFrame_bumpE st).1
      cases ok1 with
      | false =>
          refine ⟨?_, ?_, ?_, ?_⟩
          · simp only [processEntry, hscan, hts, hls, himg, hpi]
            simp [entryOkB, exceptOk, hscan, himg, ← pi1]
          · intro w hw
            simp only [processEntry, hscan, hts, hls, himg, hpi] at hw
            rcases List.mem_cons.mp hw with h | h
            · exact h ▸ writeFrame_bumpE st
            · exact writeFrame_trans hfr1 (pi2 w h)
          · intro h
            simp [processEntry, hscan, hts, hls, himg, hpi] at h
          · intro _
            obtain ⟨msg, hne, heq⟩ := pi4 rfl
            refine ⟨msg, hne, ?_⟩
            simp only [processEntry, hscan, hts, hls, himg, hpi]
            rw [getLastD_cons]
            exact heq
      | true =>
          obtain ⟨hlastA, hApi, hApe, hApa⟩ := pi3 rfl
          have hfrA : frameAgree st stA := by
            rw [hlastA]
            exact frameAgree_trans hfr1 (frameAgree_getLastD pi2)
          rcases haud : e.audioRes with eau | auds
          · refine ⟨?_, ?_, ?_, ?_⟩
            · simp only [processEntry, hscan, hts, hls, himg, hpi, haud]
              simp [entryOkB, exceptOk, hscan, himg, haud]
            · intro w hw
              simp only [processEntry, hscan, hts, hls, himg, hpi, haud] at hw
              rcases List.mem_cons.mp hw with h | h
              · exact h ▸ writeFrame_bumpE st
              · exact writeFrame_trans hfr1 (pi2 w h)
            · intro h
              simp [processEntry, hscan, hts, hls, himg, hpi, haud] at h
            · intro _
              refine ⟨"failed to fetch audio: " ++ eau, append_left_ne_empty _ _ (by decide), ?_⟩
              simp only [processEntry, hscan, hts, hls, himg, hpi, haud]
              rw [getLastD_cons, hlastA]
          · obtain ⟨pa1, pa2, pa3, pa4⟩ := processAudio_spec auds stA
            rcases hpa : processAudio auds stA with ⟨ok2, stB, ws2⟩
            rw [hpa] at pa1 pa2 pa3 pa4
            simp only at pa1 pa2 pa3 pa4
            refine ⟨?_, ?_, ?_, ?_⟩
            · simp only [processEntry, hscan, hts, hls, himg, hpi, haud, hpa]
              simp [entryOkB, exceptOk, hscan, himg, haud, ← pi1, ← pa1]
            · intro w hw
              simp only [processEntry, hscan, hts, hls, himg, hpi, haud, hpa] at hw
              rcases List.mem_cons.mp hw with h | h
              · exact h ▸ writeFrame_bumpE st
              · rcases List.mem_append.mp h with h2 | h2
                · exact writeFrame_trans hfr1 (pi2 w h2)
                · exact writeFrame_trans hfrA (pa2 w h2)
            · intro h
              simp only [processEntry, hscan, hts, hls, himg, hpi, haud, hpa] at h ⊢
              obtain ⟨hlastB, hBpa, hBpe, hBpi⟩ := pa3 h
              obtain ⟨he1, he2, he3⟩ := bumpE_counters st
              refine ⟨?_, ?_, ?_, ?_⟩
              · rw [getLastD_append, getLastD_cons, hlastB, hlastA]
              · rw [hBpe, hApe, he1]
              · rw [hBpi, hApi, he2]
                simp [entryImages, himg]
              · rw [hBpa, hApa, he3]
                simp [entryAudio, haud]
            · intro h
              simp only [processEntry, hscan, hts, hls, himg, hpi, haud, hpa] at h ⊢
              obtain ⟨msg, hne, heq⟩ := pa4 h
              refine ⟨msg, hne, ?_⟩
              rw [getLastD_append, getLastD_cons, heq, hlastA]

/-- A chain restricted to a prefix. -/
theorem chain_of_append {α : Type} (r : α → α → Prop) :
    ∀ (l1 l2 : List α) (a : α), List.Chain r a (l1 ++ l2) → List.Chain r a l1 := by
  intro l1
  induction l1 with
  | nil => intro l2 a _; exact List.Chain.nil
  | cons b bs ih =>
      intro l2 a hc
      rcases hc with _ | ⟨hab, hbs⟩
      exact List.Chain.cons hab (ih l2 b hbs)

/-- In a progress chain the last element may be replaced by one with the
same progress. -/
theorem chain_progLE_replace_last :
    ∀ (l : List ExportJobStatus) (a b c : ExportJobStatus), c.Progress = b.Progress →
      List.Chain progLE a (l ++ [b]) → List.Chain progLE a (l ++ [c]) := by
  intro l
  induction l with
  | nil =>
      intro a b c he hc
      rcases hc with _ | ⟨hab, _⟩
      refine List.Chain.cons ?_ List.Chain.nil
      unfold progLE at hab ⊢
      omega
  | cons d ds ih =>
      intro a b c he hc
      rcases hc with _ | ⟨had, hds⟩
      exact List.Chain.cons had (ih d b c he hds)

/-- The entry-loop step record satisfies the progress bound. -/
theorem bumpE_bound (st : ExportJobStatus) :
    (recalcProgress { st with ProcessedEntries := st.ProcessedEntries + 1 }).Progress ≤
      accOf (recalcProgress { st with ProcessedEntries := st.ProcessedEntries + 1 }) := by
  rw [recalcProgress_eq]
  exact le_of_eq rfl

/-- One entry iteration emits a non-decreasing progress chain ending in
its final state, which still satisfies the progress bound. -/
theorem processEntry_chain (e : EntryItem) (st : ExportJobStatus)
    (h : st.Progress ≤ accOf st) :
    List.Chain progLE st ((processEntry e st).2.2 ++ [(processEntry e st).2.1]) ∧
    (processEntry e st).2.1.Progress ≤ accOf (processEntry e st).2.1 := by
  rcases hscan : e.scanRes with esc | u
  · refine ⟨?_, ?_⟩
    · simp only [processEntry, hscan, List.nil_append]
      exact List.Chain.cons (le_of_eq rfl) List.Chain.nil
    · simpa only [processEntry, hscan] using h
  · obtain ⟨ts, hts⟩ := fetchTagsJSON_is_ok e.tagsRes
    obtain ⟨ls, hls⟩ := fetchLocationsJSON_is_ok e.locationsRes
    have hstep := progLE_bumpE st h
    have hb1 := bumpE_bound st
    rcases himg : e.imagesRes with eim | imgs
    · refine ⟨?_, ?_⟩
      · simp only [processEntry, hscan, hts, hls, himg, List.cons_append, List.nil_append]
        exact List.Chain.cons hstep (List.Chain.cons (le_of_eq rfl) List.Chain.nil)
      · simpa only [processEntry, hscan, hts, hls, himg] using hb1
    · obtain ⟨ic, ib⟩ := processImages_chain imgs (recalcProgress { st with
        ProcessedEntries := st.ProcessedEntries + 1 }) hb1
      rcases hpi : processImages imgs (recalcProgress { st with
          ProcessedEntries := st.ProcessedEntries + 1 }) with ⟨ok1, stA, ws1⟩
      obtain ⟨pi1, pi2, pi3, pi4⟩ := processImages_spec imgs (recalcProgress { st with
          ProcessedEntries := st.ProcessedEntries + 1 })
      rw [hpi] at ic ib pi1 pi2 pi3 pi4
      simp only at ic ib pi1 pi2 pi3 pi4
      cases ok1 with
      | false =>
          refine ⟨?_, ?_⟩
          · simp only [processEntry, hscan, hts, hls, himg, hpi, List.cons_append]
            exact List.Chain.cons hstep ic
          · simpa only [processEntry, hscan, hts, hls, himg, hpi] using ib
      | true =>
          obtain ⟨hlastA, _, _, _⟩ := pi3 rfl
          rcases haud : e.audioRes with eau | auds
          · refine ⟨?_, ?_⟩
            · simp only [processEntry, hscan, hts, hls, himg, hpi, haud, List.cons_append]
              exact List.Chain.cons hstep (chain_progLE_replace_last ws1 _ stA _ rfl ic)
            · simpa only [processEntry, hscan, hts, hls, himg, hpi, haud] using ib
          · obtain ⟨ac, ab⟩ := processAudio_chain auds stA ib
            rcases hpa : processAudio auds stA with ⟨ok2, stB, ws2⟩
            rw [hpa] at ac ab
            simp only at ac ab
            refine ⟨?_, ?_⟩
            · simp only [processEntry, hscan, hts, hls, himg, hpi, haud, hpa,
                List.append_assoc, List.cons_append]
              refine List.Chain.cons hstep ?_
              refine chain_append_of progLE ws1 (ws2 ++ [stB]) _ ?_ ?_
              · exact chain_of_append progLE ws1 [stA] _ ic
              · rw [← hlastA]; exact ac
            · simpa only [processEntry, hscan, hts, hls, himg, hpi, haud, hpa] using ab

/-- Full characterisation of the entries loop. -/
theorem processEntries_spec (es : List EntryItem) (st : ExportJobStatus) :
    ((processEntries es st).1 = es.all entryOkB) ∧
    (∀ w ∈ (processEntries es st).2.2, writeFrame st w) ∧
    ((processEntries es st).1 = true →
      (processEntries es st).2.1 = ((processEntries es st).2.2).getLast?.getD st ∧
      (processEntries es st).2.1.ProcessedEntries = st.ProcessedEntries + es.length ∧
      (processEntries es st).2.1.ProcessedImages = st.ProcessedImages + totalImagesLen es ∧
      (processEntries es st).2.1.ProcessedAudio = st.ProcessedAudio + totalAudioLen es) ∧
    ((processEntries es st).1 = false →
      ∃ msg, msg ≠ "" ∧
        (processEntries es st).2.1 =
          failSt (((processEntries es st).2.2).getLast?.getD st) msg) := by
  induction es generalizing st with
  | nil =>
      refine ⟨rfl, ?_, ?_, ?_⟩
      · intro w hw; cases hw
      · intro _
        refine ⟨rfl, rfl, ?_, ?_⟩ <;> simp [processEntries, totalImagesLen, totalAudioLen]
      · intro h; simp [processEntries] at h
  | cons e es ih =>
      obtain ⟨pe1, pe2, pe3, pe4⟩ := processEntry_spec e st
      rcases hpe : processEntry e st with ⟨ok1, stE, wsE⟩
      rw [hpe] at pe1 pe2 pe3 pe4
      simp only at pe1 pe2 pe3 pe4
      cases ok1 with
      | false =>
          refine ⟨?_, ?_, ?_, ?_⟩
          · simp [processEntries, hpe, ← pe1]
          · intro w hw
            simp only [processEntries, hpe] at hw
            exact pe2 w hw
          · intro h; simp [processEntries, hpe] at h
          · intro _
            obtain ⟨msg, hne, heq⟩ := pe4 rfl
            refine ⟨msg, hne, ?_⟩
            simp only [processEntries, hpe]
            exact heq
      | true =>
          obtain ⟨hlastE, hEpe, hEpi, hEpa⟩ := pe3 rfl
          have hfrE : frameAgree st stE := by
            rw [hlastE]
            exact frameAgree_getLastD pe2
          obtain ⟨ih1, ih2, ih3, ih4⟩ := ih stE
          refine ⟨?_, ?_, ?_, ?_⟩
          · simp [processEntries, hpe, ← pe1, ih1]
          · intro w hw
            simp only [processEntries, hpe] at hw
            rcases List.mem_append.mp hw with h2 | h2
            · exact pe2 w h2
            · exact writeFrame_trans hfrE (ih2 w h2)
          · intro h
            simp only [processEntries, hpe] at h ⊢
            obtain ⟨hlast, hn1, hn2, hn3⟩ := ih3 h
            refine ⟨?_, ?_, ?_, ?_⟩
            · rw [getLastD_append, hlast, hlastE]
            · rw [hn1, hEpe]
              simp
              omega
            · rw [hn2, hEpi]
              simp [totalImagesLen]
              omega
            · rw [hn3, hEpa]
              simp [totalAudioLen]
              omega
          · intro h
            simp only [processEntries, hpe] at h ⊢
            obtain ⟨msg, hne, heq⟩ := ih4 h
            refine ⟨msg, hne, ?_⟩
            rw [getLastD_append, heq, hlastE]

/-- The entries loop emits a non-decreasing progress chain ending in its
final state, which still satisfies the progress bound. -/
theorem processEntries_chain (es : List EntryItem) (st : ExportJobStatus)
    (h : st.Progress ≤ accOf st) :
    List.Chain progLE st ((processEntries es st).2.2 ++ [(processEntries es st).2.1]) ∧
    (processEntries es st).2.1.Progress ≤ accOf (processEntries es st).2.1 := by
  induction es generalizing st with
  | nil => exact ⟨List.Chain.cons (le_refl _) List.Chain.nil, h⟩
  | cons e es ih =>
      obtain ⟨ec, eb⟩ := processEntry_chain e st h
      obtain ⟨pe1, pe2, pe3, pe4⟩ := processEntry_spec e st
      rcases hpe : processEntry e st with ⟨ok1, stE, wsE⟩
      rw [hpe] at ec eb pe1 pe2 pe3 pe4
      simp only at ec eb pe1 pe2 pe3 pe4
      cases ok1 with
      | false =>
          refine ⟨?_, ?_⟩
          · simp only [processEntries, hpe]
            exact ec
          · simpa only [processEntries, hpe] using eb
      | true =>
          obtain ⟨hlastE, _, _, _⟩ := pe3 rfl
          obtain ⟨ihc, ihb⟩ := ih stE eb
          refine ⟨?_, ?_⟩
          · simp only [processEntries, hpe, List.append_assoc]
            refine chain_append_of progLE wsE _ st ?_ ?_
            · exact chain_of_append progLE wsE [stE] st ec
            · rw [← hlastE]; exact ihc
          · simpa only [processEntries, hpe] using ihb

/-! ## The body of the background job -/

/-- Exhaustive case analysis of `runBody`: fatal failure before the totals
write, fatal failure after it (CSV creation or entries query), fatal
failure inside the entries loop, fatal zip failure after a successful
loop, or completion.  Each case records the equations needed to recognise
it from the environment. -/
theorem runBody_cases (jobID uid : String) (env : ExportEnv) (st : ExportJobStatus) :
    (∃ msg, msg ≠ "" ∧ envAllOkB env = false ∧
      runBody jobID uid env st = (failSt st msg, [])) ∨
    (∃ tE tI tA msg, msg ≠ "" ∧ envAllOkB env = false ∧
      env.countEntriesRes = .ok tE ∧ env.countImagesRes = .ok tI ∧
      env.countAudioRes = .ok tA ∧
      runBody jobID uid env st =
        (failSt (setTotals st tE tI tA) msg, [setTotals st tE tI tA])) ∨
    (∃ tE tI tA es, envAllOkB env = false ∧
      env.countEntriesRes = .ok tE ∧ env.countImagesRes = .ok tI ∧
      env.countAudioRes = .ok tA ∧ env.entriesRes = .ok es ∧
      (processEntries es (setTotals st tE tI tA)).1 = false ∧
      runBody jobID uid env st =
        ((processEntries es (setTotals st tE tI tA)).2.1,
          setTotals st tE tI tA :: (processEntries es (setTotals st tE tI tA)).2.2)) ∨
    (∃ tE tI tA es msg, msg ≠ "" ∧ envAllOkB env = false ∧
      env.countEntriesRes = .ok tE ∧ env.countImagesRes = .ok tI ∧
      env.countAudioRes = .ok tA ∧ env.entriesRes = .ok es ∧
      (processEntries es (setTotals st tE tI tA)).1 = true ∧
      runBody jobID uid env st =
        (failSt (processEntries es (setTotals st tE tI tA)).2.1 msg,
          setTotals st tE tI tA :: (processEntries es (setTotals st tE tI tA)).2.2)) ∨
    (∃ tE tI tA es, envAllOkB env = true ∧
      env.mkdirRes = .ok () ∧ env.countEntriesRes = .ok tE ∧
      env.countImagesRes = .ok tI ∧ env.countAudioRes = .ok tA ∧
      env.csvCreateRes = .ok () ∧ env.entriesRes = .ok es ∧ env.zipRes = .ok () ∧
      (processEntries es (setTotals st tE tI tA)).1 = true ∧
      runBody jobID uid env st =
        (completedSt (processEntries es (setTotals st tE tI tA)).2.1 jobID uid env.now,
          setTotals st tE tI tA :: (processEntries es (setTotals st tE tI tA)).2.2 ++
            [completedSt (processEntries es (setTotals st tE tI tA)).2.1 jobID uid env.now])) := by
  rcases hmk : env.mkdirRes with m0 | u0
  · exact Or.inl ⟨"failed to create export directories: " ++ m0,
      append_left_ne_empty _ _ (by decide), by simp [envAllOkB, exceptOk, hmk],
      by simp [runBody, hmk]⟩
  cases u0
  rcases hce : env.countEntriesRes with m1 | tE
  · exact Or.inl ⟨"failed to count entries: " ++ m1,
      append_left_ne_empty _ _ (by decide), by simp [envAllOkB, exceptOk, hce],
      by simp [runBody, hmk, hce]⟩
  rcases hci : env.countImagesRes with m2 | tI
  · exact Or.inl ⟨"failed to count images: " ++ m2,
      append_left_ne_empty _ _ (by decide), by simp [envAllOkB, exceptOk, hci],
      by simp [runBody, hmk, hce, hci]⟩
  rcases hca : env.countAudioRes with m3 | tA
  · exact Or.inl ⟨"failed to count audio: " ++ m3,
      append_left_ne_empty _ _ (by decide), by simp [envAllOkB, exceptOk, hca],
      by simp [runBody, hmk, hce, hci, hca]⟩
  rcases hcs : env.csvCreateRes with m4 | u4
  · refine Or.inr (Or.inl ⟨tE, tI, tA, "failed to create CSV file: " ++ m4,
      append_left_ne_empty _ _ (by decide), by simp [envAllOkB, exceptOk, hcs],
      rfl, rfl, rfl, ?_⟩)
    simp [runBody, hmk, hce, hci, hca, hcs, setTotals]
  cases u4
  rcases hen : env.entriesRes with m5 | es
  · refine Or.inr (Or.inl ⟨tE, tI, tA, "failed to fetch entries: " ++ m5,
      append_left_ne_empty _ _ (by decide), by simp [envAllOkB, exceptOk, hen],
      rfl, rfl, rfl, ?_⟩)
    simp [runBody, hmk, hce, hci, hca, hcs, hen, setTotals]
  rcases hloop : processEntries es (setTotals st tE tI tA) with ⟨ok, stF, ws⟩
  have hall := (processEntries_spec es (setTotals st tE tI tA)).1
  rw [hloop] at hall
  simp only at hall
  simp only [setTotals] at hloop
  cases ok
  · refine Or.inr (Or.inr (Or.inl ⟨tE, tI, tA, es, ?_, rfl, rfl, rfl, rfl, ?_, ?_⟩))
    · simp [envAllOkB, hen, ← hall]
    · simp [setTotals, hloop]
    · simp [runBody, hmk, hce, hci, hca, hcs, hen, setTotals, hloop]
  rcases hz : env.zipRes with m6 | u6
  · refine Or.inr (Or.inr (Or.inr (Or.inl ⟨tE, tI, tA, es, "failed to create zip: " ++ m6,
      append_left_ne_empty _ _ (by decide), by simp [envAllOkB, exceptOk, hz],
      rfl, rfl, rfl, rfl, ?_, ?_⟩)))
    · simp [setTotals, hloop]
    · simp [runBody, hmk, hce, hci, hca, hcs, hen, setTotals, hloop, hz]
  cases u6
  refine Or.inr (Or.inr (Or.inr (Or.inr ⟨tE, tI, tA, es, ?_, rfl, rfl, rfl, rfl, rfl, rfl,
    rfl, ?_, ?_⟩)))
  · simp [envAllOkB, exceptOk, hmk, hce, hci, hca, hcs, hen, hz, ← hall]
  · simp [setTotals, hloop]
  · simp [runBody, hmk, hce, hci, hca, hcs, hen, setTotals, hloop, hz, completedSt, zipPathOf]

/-! ## The full background task -/

/-- Master characterisation of the trace of one background task whose
initial load returns the pending record written at submission: the trace
is the `running` record, a block of intermediate `running` writes, and a
terminal record — a duplicated completed record exactly when every fatal
check succeeded, a single failed record otherwise — and the whole trace
carries monotone progress. -/
theorem runExportJob_shape (jobID uid : String) (t0 : Nat) (env : ExportEnv)
    (hl : env.loaded = some (mkPendingStatus jobID uid t0)) :
    ∃ ws fin,
      (∀ w ∈ ws, w.Status = "running" ∧ w.ZipPath = "" ∧ w.Error = "" ∧
        (w.Progress = accOf w ∨ w.Progress = 0)) ∧
      ((fin.Status = "completed" ∧ fin.ZipPath = zipPathOf uid jobID ∧ fin.Error = "" ∧
          fin.Progress = 100 ∧ envAllOkB env = true ∧
          runExportJob jobID uid env =
            { mkPendingStatus jobID uid t0 with Status := "running" } :: ws ++ [fin, fin] ∧
          (∀ es, env.entriesRes = .ok es →
            fin.ProcessedEntries = es.length ∧
            fin.ProcessedImages = totalImagesLen es ∧
            fin.ProcessedAudio = totalAudioLen es)) ∨
        (fin.Status = "failed" ∧ fin.Error ≠ "" ∧ fin.ZipPath = "" ∧ envAllOkB env = false ∧
          fin.Progress = ((ws.getLast?.getD
            { mkPendingStatus jobID uid t0 with Status := "running" })).Progress ∧
          runExportJob jobID uid env =
            { mkPendingStatus jobID uid t0 with Status := "running" } :: ws ++ [fin])) ∧
      List.Chain progLE (mkPendingStatus jobID uid t0) (runExportJob jobID uid env) := by
  rcases runBody_cases jobID uid env
      { mkPendingStatus jobID uid t0 with Status := "running" } with
    ⟨msg, hne, hallF, heq⟩ | ⟨tE, tI, tA, msg, hne, hallF, hce, hci, hca, heq⟩ |
    ⟨tE, tI, tA, es, hallF, hce, hci, hca, hen, hfalse, heq⟩ |
    ⟨tE, tI, tA, es, msg, hne, hallF, hce, hci, hca, hen, htrue, heq⟩ |
    ⟨tE, tI, tA, es, hallT, hmk, hce, hci, hca, hcs, hen, hz, htrue, heq⟩
  · -- fatal before the totals write
    have htr : runExportJob jobID uid env =
        { mkPendingStatus jobID uid t0 with Status := "running" } ::
          [failSt { mkPendingStatus jobID uid t0 with Status := "running" } msg] := by
      simp [runExportJob, hl, heq]
    refine ⟨[], failSt { mkPendingStatus jobID uid t0 with Status := "running" } msg,
      ?_, ?_, ?_⟩
    · intro w hw; cases hw
    · exact Or.inr ⟨rfl, hne, rfl, hallF, rfl, by simp [htr]⟩
    · rw [htr]
      exact List.Chain.cons (le_of_eq rfl) (List.Chain.cons (le_of_eq rfl) List.Chain.nil)
  · -- fatal just after the totals write
    have htr : runExportJob jobID uid env =
        { mkPendingStatus jobID uid t0 with Status := "running" } ::
          setTotals { mkPendingStatus jobID uid t0 with Status := "running" } tE tI tA ::
          [failSt (setTotals { mkPendingStatus jobID uid t0 with Status := "running" }
            tE tI tA) msg] := by
      simp [runExportJob, hl, heq]
    refine ⟨[setTotals { mkPendingStatus jobID uid t0 with Status := "running" } tE tI tA],
      failSt (setTotals { mkPendingStatus jobID uid t0 with Status := "running" } tE tI tA)
        msg, ?_, ?_, ?_⟩
    · intro w hw
      rcases List.mem_singleton.mp hw with rfl
      exact ⟨rfl, rfl, rfl, Or.inr rfl⟩
    · exact Or.inr ⟨rfl, hne, rfl, hallF, rfl, by simp [htr]⟩
    · rw [htr]
      exact List.Chain.cons (le_of_eq rfl) (List.Chain.cons (le_of_eq rfl)
        (List.Chain.cons (le_of_eq rfl) List.Chain.nil))
  · -- fatal inside the entries loop
    obtain ⟨sp1, sp2, sp3, sp4⟩ := processEntries_spec es
      (setTotals { mkPendingStatus jobID uid t0 with Status := "running" } tE tI tA)
    obtain ⟨msg, hne, hfinEq⟩ := sp4 hfalse
    obtain ⟨ch, chb⟩ := processEntries_chain es
      (setTotals { mkPendingStatus jobID uid t0 with Status := "running" } tE tI tA)
      (Nat.zero_le _)
    have htr : runExportJob jobID uid env =
        { mkPendingStatus jobID uid t0 with Status := "running" } ::
          setTotals { mkPendingStatus jobID uid t0 with Status := "running" } tE tI tA ::
          ((processEntries es (setTotals { mkPendingStatus jobID uid t0 with
              Status := "running" } tE tI tA)).2.2 ++
            [(processEntries es (setTotals { mkPendingStatus jobID uid t0 with
              Status := "running" } tE tI tA)).2.1]) := by
      simp [runExportJob, hl, heq]
    refine ⟨setTotals { mkPendingStatus jobID uid t0 with Status := "running" } tE tI tA ::
        (processEntries es (setTotals { mkPendingStatus jobID uid t0 with
          Status := "running" } tE tI tA)).2.2,
      (processEntries es (setTotals { mkPendingStatus jobID uid t0 with
        Status := "running" } tE tI tA)).2.1, ?_, ?_, ?_⟩
    · intro w hw
      rcases List.mem_cons.mp hw with rfl | hw2
      · exact ⟨rfl, rfl, rfl, Or.inr rfl⟩
      · obtain ⟨hfr, hpr⟩ := sp2 w hw2
        exact ⟨hfr.1.trans rfl, hfr.2.1.trans rfl, hfr.2.2.1.trans rfl, Or.inl hpr⟩
    · refine Or.inr ⟨?_, ?_, ?_, hallF, ?_, ?_⟩
      · rw [hfinEq]; rfl
      · rw [hfinEq]; exact hne
      · rw [hfinEq]
        exact (frameAgree_getLastD sp2).2.1.trans rfl
      · rw [hfinEq, getLastD_cons]
        rfl
      · rw [htr]; simp
    · rw [htr]
      exact List.Chain.cons (le_of_eq rfl) (List.Chain.cons (le_of_eq rfl) ch)
  · -- fatal zip failure after a successful loop
    obtain ⟨sp1, sp2, sp3, sp4⟩ := processEntries_spec es
      (setTotals { mkPendingStatus jobID uid t0 with Status := "running" } tE tI tA)
    obtain ⟨hlast, hpe, hpi, hpa⟩ := sp3 htrue
    obtain ⟨ch, chb⟩ := processEntries_chain es
      (setTotals { mkPendingStatus jobID uid t0 with Status := "running" } tE tI tA)
      (Nat.zero_le _)
    have htr : runExportJob jobID uid env =
        { mkPendingStatus jobID uid t0 with Status := "running" } ::
          setTotals { mkPendingStatus jobID uid t0 with Status := "running" } tE tI tA ::
          ((processEntries es (setTotals { mkPendingStatus jobID uid t0 with
              Status := "running" } tE tI tA)).2.2 ++
            [failSt (processEntries es (setTotals { mkPendingStatus jobID uid t0 with
              Status := "running" } tE tI tA)).2.1 msg]) := by
      simp [runExportJob, hl, heq]
    refine ⟨setTotals { mkPendingStatus jobID uid t0 with Status := "running" } tE tI tA ::
        (processEntries es (setTotals { mkPendingStatus jobID uid t0 with
          Status := "running" } tE tI tA)).2.2,
      failSt (processEntries es (setTotals { mkPendingStatus jobID uid t0 with
        Status := "running" } tE tI tA)).2.1 msg, ?_, ?_, ?_⟩
    · intro w hw
      rcases List.mem_cons.mp hw with rfl | hw2
      · exact ⟨rfl, rfl, rfl, Or.inr rfl⟩
      · obtain ⟨hfr, hpr⟩ := sp2 w hw2
        exact ⟨hfr.1.trans rfl, hfr.2.1.trans rfl, hfr.2.2.1.trans rfl, Or.inl hpr⟩
    · refine Or.inr ⟨rfl, hne, ?_, hallF, ?_, ?_⟩
      · show (processEntries es (setTotals { mkPendingStatus jobID uid t0 with
          Status := "running" } tE tI tA)).2.1.ZipPath = ""
        rw [hlast]
        exact (frameAgree_getLastD sp2).2.1.trans rfl
      · show (processEntries es (setTotals { mkPendingStatus jobID uid t0 with
          Status := "running" } tE tI tA)).2.1.Progress = _
        rw [getLastD_cons, ← hlast]
      · rw [htr]; simp
    · rw [htr]
      refine List.Chain.cons (le_of_eq rfl) (List.Chain.cons (le_of_eq rfl) ?_)
      refine chain_progLE_replace_last _ _ _ _ ?_ ch
      rfl
  · -- completion
    obtain ⟨sp1, sp2, sp3, sp4⟩ := processEntries_spec es
      (setTotals { mkPendingStatus jobID uid t0 with Status := "running" } tE tI tA)
    obtain ⟨hlast, hpe, hpi, hpa⟩ := sp3 htrue
    obtain ⟨ch, chb⟩ := processEntries_chain es
      (setTotals { mkPendingStatus jobID uid t0 with Status := "running" } tE tI tA)
      (Nat.zero_le _)
    have htr : runExportJob jobID uid env =
        { mkPendingStatus jobID uid t0 with Status := "running" } ::
          setTotals { mkPendingStatus jobID uid t0 with Status := "running" } tE tI tA ::
          ((processEntries es (setTotals { mkPendingStatus jobID uid t0 with
              Status := "running" } tE tI tA)).2.2 ++
            [completedSt (processEntries es (setTotals { mkPendingStatus jobID uid t0 with
              Status := "running" } tE tI tA)).2.1 jobID uid env.now,
             completedSt (processEntries es (setTotals { mkPendingStatus jobID uid t0 with
              Status := "running" } tE tI tA)).2.1 jobID uid env.now]) := by
      simp [runExportJob, hl, heq]
    refine ⟨setTotals { mkPendingStatus jobID uid t0 with Status := "running" } tE tI tA ::
        (processEntries es (setTotals { mkPendingStatus jobID uid t0 with
          Status := "running" } tE tI tA)).2.2,
      completedSt (processEntries es (setTotals { mkPendingStatus jobID uid t0 with
        Status := "running" } tE tI tA)).2.1 jobID uid env.now, ?_, ?_, ?_⟩
    · intro w hw
      rcases List.mem_cons.mp hw with rfl | hw2
      · exact ⟨rfl, rfl, rfl, Or.inr rfl⟩
      · obtain ⟨hfr, hpr⟩ := sp2 w hw2
        exact ⟨hfr.1.trans rfl, hfr.2.1.trans rfl, hfr.2.2.1.trans rfl, Or.inl hpr⟩
    · refine Or.inl ⟨rfl, rfl, ?_, rfl, hallT, ?_, ?_⟩
      · show (processEntries es (setTotals { mkPendingStatus jobID uid t0 with
          Status := "running" } tE tI tA)).2.1.Error = ""
        rw [hlast]
        exact (frameAgree_getLastD sp2).2.2.1.trans rfl
      · rw [htr]; simp
      · intro es2 hes2
        rw [hen] at hes2
        obtain rfl := Except.ok.inj hes2
        refine ⟨?_, ?_, ?_⟩
        · show (processEntries es (setTotals { mkPendingStatus jobID uid t0 with
            Status := "running" } tE tI tA)).2.1.ProcessedEntries = es.length
          rw [hpe]
          exact Nat.zero_add _
        · show (processEntries es (setTotals { mkPendingStatus jobID uid t0 with
            Status := "running" } tE tI tA)).2.1.ProcessedImages = totalImagesLen es
          rw [hpi]
          exact Nat.zero_add _
        · show (processEntries es (setTotals { mkPendingStatus jobID uid t0 with
            Status := "running" } tE tI tA)).2.1.ProcessedAudio = totalAudioLen es
          rw [hpa]
          exact Nat.zero_add _
    · rw [htr]
      refine List.Chain.cons (le_of_eq rfl) (List.Chain.cons (le_of_eq rfl) ?_)
      refine chain_append_of progLE _ _ _ (chain_of_append progLE _ _ _ ch) ?_
      rw [← hlast]
      refine List.Chain.cons ?_ (List.Chain.cons (le_of_eq rfl) List.Chain.nil)
      exact le_trans chb (accOf_le_100 _)

/-- The archive path always ends in `.zip` and is never empty. -/
theorem zipPathOf_ne_empty (uid jobID : String) : zipPathOf uid jobID ≠ "" := by
  unfold zipPathOf
  exact append_left_ne_empty _ _ (append_left_ne_empty _ _ (append_left_ne_empty _ _
    (append_left_ne_empty _ _ (by decide))))

/-- `getLast?` of a cons in terms of the defaulted last element. -/
theorem getLast?_cons_eq {α : Type} : ∀ (a : α) (l : List α),
    (a :: l).getLast? = some (l.getLast?.getD a)
  | _, [] => rfl
  | a, b :: bs => by
      rw [List.getLast?_cons_cons, getLast?_cons_eq b bs]
      rfl

/-- A run of `running` statuses prefixed to an allowed chain is allowed. -/
theorem chain_allowed_replicate (rest : List String)
    (h : List.Chain allowedStep "running" rest) :
    ∀ n, List.Chain allowedStep "running" (List.replicate n "running" ++ rest)
  | 0 => h
  | n + 1 => by
      rw [List.replicate_succ, List.cons_append]
      exact List.Chain.cons (Or.inl rfl) (chain_allowed_replicate rest h n)

/-- If some entry fails a fatal check, the conjunction over all entries is
false. -/
theorem all_entryOk_false_of_any (es : List EntryItem)
    (h : es.any (fun e => !(entryOkB e)) = true) : es.all entryOkB = false := by
  obtain ⟨e, hmem, hne⟩ := List.any_eq_true.mp h
  rw [Bool.not_eq_true'] at hne
  cases hall : es.all entryOkB with
  | false => rfl
  | true =>
      have := List.all_eq_true.mp hall e hmem
      rw [hne] at this
      cases this

/-- A fatal record-store failure falsifies the all-checks-pass predicate. -/
theorem envAllOkB_false_of_storeFatal (env : ExportEnv) (h : storeFatalB env = true) :
    envAllOkB env = false := by
  unfold storeFatalB at h
  simp only [Bool.or_eq_true] at h
  rcases h with ((h | h) | h) | h
  · rw [Bool.not_eq_true'] at h
    simp [envAllOkB, h]
  · rw [Bool.not_eq_true'] at h
    simp [envAllOkB, h]
  · rw [Bool.not_eq_true'] at h
    simp [envAllOkB, h]
  · revert h
    cases hen : env.entriesRes with
    | error m => intro _; simp [envAllOkB, hen]
    | ok es =>
        intro h
        simp [envAllOkB, hen, all_entryOk_false_of_any es h]

/-! ## Claim theorems -/

/-- C4: in every record the job ever persists, a completed status comes
with a non-empty archive path and an empty error, a failed status with a
non-empty error and an empty archive path — never both non-empty, never
both empty once terminal. -/
theorem C4_terminal_exclusivity (jobID uid : String) (t0 : Nat) (env : ExportEnv)
    (hl : env.loaded = some (mkPendingStatus jobID uid t0)) :
    ∀ w ∈ jobTrace jobID uid t0 env,
      (w.Status = "completed" → w.ZipPath ≠ "" ∧ w.Error = "") ∧
      (w.Status = "failed" → w.Error ≠ "" ∧ w.ZipPath = "") := by
  obtain ⟨ws, fin, hws, hcase, _⟩ := runExportJob_shape jobID uid t0 env hl
  intro w hw
  simp only [jobTrace] at hw
  rcases List.mem_cons.mp hw with rfl | hw1
  · constructor <;> intro hst <;>
      exact absurd hst (show ¬("pending" : String) = _ by decide)
  rcases hcase with ⟨hstat, hzip, herr, _, _, htr, _⟩ | ⟨hstat, herr, hzip, _, _, htr⟩
  · rw [htr] at hw1
    rcases List.mem_append.mp hw1 with hw2 | hw2
    · rcases List.mem_cons.mp hw2 with rfl | hw3
      · constructor <;> intro hst <;>
          exact absurd hst (show ¬("running" : String) = _ by decide)
      · obtain ⟨hrS, _, _, _⟩ := hws w hw3
        constructor <;> intro hst <;> rw [hrS] at hst <;> exact absurd hst (by decide)
    · have hwf : w = fin := by
        rcases List.mem_cons.mp hw2 with rfl | hw3
        · rfl
        · exact List.mem_singleton.mp hw3
      subst hwf
      constructor
      · intro _
        exact ⟨by rw [hzip]; exact zipPathOf_ne_empty uid jobID, herr⟩
      · intro hst
        rw [hstat] at hst
        exact absurd hst (by decide)
  · rw [htr] at hw1
    rcases List.mem_append.mp hw1 with hw2 | hw2
    · rcases List.mem_cons.mp hw2 with rfl | hw3
      · constructor <;> intro hst <;>
          exact absurd hst (show ¬("running" : String) = _ by decide)
      · obtain ⟨hrS, _, _, _⟩ := hws w hw3
        constructor <;> intro hst <;> rw [hrS] at hst <;> exact absurd hst (by decide)
    · have hwf : w = fin := List.mem_singleton.mp hw2
      subst hwf
      constructor
      · intro hst
        rw [hstat] at hst
        exact absurd hst (by decide)
      · intro _
        exact ⟨herr, hzip⟩

/-- Witness for C4 at the failed terminal record of a count-outage run. -/
theorem C4_terminal_exclusivity_witness :
    (stFailedEx.Status = "completed" → stFailedEx.ZipPath ≠ "" ∧ stFailedEx.Error = "") ∧
    (stFailedEx.Status = "failed" → stFailedEx.Error ≠ "" ∧ stFailedEx.ZipPath = "") :=
  C4_terminal_exclusivity "job-1" "user-1" 0 envOutage rfl stFailedEx (by decide)

/-- C7: every persisted record carries a progress in [0,100], the
persisted sequence is monotonically non-decreasing in progress, a
completed record always carries progress 100, and a failed terminal
record freezes the progress of the record persisted just before it. -/
theorem C7_progress_invariants (jobID uid : String) (t0 : Nat) (env : ExportEnv)
    (hl : env.loaded = some (mkPendingStatus jobID uid t0)) :
    (∀ w ∈ jobTrace jobID uid t0 env, w.Progress ≤ 100) ∧
    List.Chain' progLE (jobTrace jobID uid t0 env) ∧
    (∀ w ∈ jobTrace jobID uid t0 env, w.Status = "completed" → w.Progress = 100) ∧
    (∀ pre a b, jobTrace jobID uid t0 env = pre ++ [a, b] → b.Status = "failed" →
      b.Progress = a.Progress) := by
  obtain ⟨ws, fin, hws, hcase, hchain⟩ := runExportJob_shape jobID uid t0 env hl
  have hwbound : ∀ w ∈ ws, w.Progress ≤ 100 := by
    intro w hw
    rcases (hws w hw).2.2.2 with h | h
    · rw [h]; exact accOf_le_100 w
    · rw [h]; exact Nat.zero_le 100
  have hfinbound : fin.Progress ≤ 100 := by
    rcases hcase with ⟨_, _, _, hprog, _, _, _⟩ | ⟨_, _, _, _, hprog, _⟩
    · rw [hprog]
    · rw [hprog]
      rcases getLastD_eq_or_mem ws
          { mkPendingStatus jobID uid t0 with Status := "running" } with he | hm
      · rw [he]; exact (by decide : (0 : Nat) ≤ 100)
      · exact hwbound _ hm
  refine ⟨?_, ?_, ?_, ?_⟩
  · intro w hw
    simp only [jobTrace] at hw
    rcases List.mem_cons.mp hw with rfl | hw1
    · exact (by decide : (0 : Nat) ≤ 100)
    rcases hcase with ⟨_, _, _, _, _, htr, _⟩ | ⟨_, _, _, _, _, htr⟩ <;> rw [htr] at hw1 <;>
      rcases List.mem_append.mp hw1 with hw2 | hw2
    · rcases List.mem_cons.mp hw2 with rfl | hw3
      · exact (by decide : (0 : Nat) ≤ 100)
      · exact hwbound w hw3
    · have hwf : w = fin := by
        rcases List.mem_cons.mp hw2 with rfl | hw3
        · rfl
        · exact List.mem_singleton.mp hw3
      rw [hwf]; exact hfinbound
    · rcases List.mem_cons.mp hw2 with rfl | hw3
      · exact (by decide : (0 : Nat) ≤ 100)
      · exact hwbound w hw3
    · rw [List.mem_singleton.mp hw2]; exact hfinbound
  · show List.Chain progLE (mkPendingStatus jobID uid t0) (runExportJob jobID uid env)
    exact hchain
  · intro w hw hst
    simp only [jobTrace] at hw
    rcases List.mem_cons.mp hw with rfl | hw1
    · exact absurd hst (show ¬("pending" : String) = _ by decide)
    rcases hcase with ⟨hstat, _, _, hprog, _, htr, _⟩ | ⟨hstat, _, _, _, hprog, htr⟩
    · rw [htr] at hw1
      rcases List.mem_append.mp hw1 with hw2 | hw2
      · rcases List.mem_cons.mp hw2 with rfl | hw3
        · exact absurd hst (show ¬("running" : String) = _ by decide)
        · rw [(hws w hw3).1] at hst; exact absurd hst (by decide)
      · have hwf : w = fin := by
          rcases List.mem_cons.mp hw2 with rfl | hw3
          · rfl
          · exact List.mem_singleton.mp hw3
        rw [hwf, hprog]
    · rw [htr] at hw1
      rcases List.mem_append.mp hw1 with hw2 | hw2
      · rcases List.mem_cons.mp hw2 with rfl | hw3
        · exact absurd hst (show ¬("running" : String) = _ by decide)
        · rw [(hws w hw3).1] at hst; exact absurd hst (by decide)
      · rw [List.mem_singleton.mp hw2] at hst
        rw [hstat] at hst
        exact absurd hst (by decide)
  · intro pre a b htrab hbf
    rcases hcase with ⟨hstat, _, _, _, _, htr, _⟩ | ⟨hstat, _, _, _, hprog, htr⟩
    · -- the trace ends in two completed records; b cannot be failed
      have hshape : (mkPendingStatus jobID uid t0 ::
          { mkPendingStatus jobID uid t0 with Status := "running" } :: ws) ++ [fin, fin] =
          pre ++ [a, b] := by
        rw [← htrab]
        simp [jobTrace, htr]
      have hb : b = fin := by
        have h1 := congrArg List.getLast? hshape
        rw [show (mkPendingStatus jobID uid t0 ::
            { mkPendingStatus jobID uid t0 with Status := "running" } :: ws) ++ [fin, fin] =
            ((mkPendingStatus jobID uid t0 ::
              { mkPendingStatus jobID uid t0 with Status := "running" } :: ws) ++ [fin]) ++
              [fin] by simp] at h1
        rw [show pre ++ [a, b] = (pre ++ [a]) ++ [b] by simp] at h1
        rw [List.getLast?_concat, List.getLast?_concat] at h1
        exact (Option.some.inj h1).symm
      rw [hb, hstat] at hbf
      exact absurd hbf (by decide)
    · have hshape : (mkPendingStatus jobID uid t0 ::
          { mkPendingStatus jobID uid t0 with Status := "running" } :: ws) ++ [fin] =
          (pre ++ [a]) ++ [b] := by
        rw [show (pre ++ [a]) ++ [b] = pre ++ [a, b] by simp, ← htrab]
        simp [jobTrace, htr]
      have hb : b = fin := by
        have h1 := congrArg List.getLast? hshape
        rw [List.getLast?_concat, List.getLast?_concat] at h1
        exact (Option.some.inj h1).symm
      have hps : mkPendingStatus jobID uid t0 ::
          { mkPendingStatus jobID uid t0 with Status := "running" } :: ws = pre ++ [a] := by
        have h2 := congrArg List.dropLast hshape
        rwa [List.dropLast_concat, List.dropLast_concat] at h2
      have ha : a = ws.getLast?.getD
          { mkPendingStatus jobID uid t0 with Status := "running" } := by
        have h3 := congrArg List.getLast? hps
        rw [List.getLast?_concat, getLast?_cons_eq, getLastD_cons] at h3
        exact (Option.some.inj h3).symm
      rw [hb, hprog, ha]

/-- Witness for C7: the bound instantiated at the head of a concrete
trace. -/
theorem C7_progress_invariants_witness :
    (mkPendingStatus "job-1" "user-1" 0).Progress ≤ 100 :=
  (C7_progress_invariants "job-1" "user-1" 0 envThree rfl).1
    (mkPendingStatus "job-1" "user-1" 0) (by decide)

/-- C5: for every job record and every authenticated caller whose uid
differs from the record's owner uid, both the poll operation
(`ExportProgress`) and the download operation (`DownloadExportedData`)
answer Forbidden, whatever the job's status and archive state. -/
theorem C5_owner_mismatch_forbidden (uid jobID : String) (st : ExportJobStatus)
    (fileExists : String → Bool) (hu : uid ≠ "") (hj : jobID ≠ "") (hmis : st.UID ≠ uid) :
    (exportProgress (some uid) jobID (some st)).code = .forbidden ∧
    (downloadExportedData (some uid) jobID (some st) fileExists).code = .forbidden := by
  constructor <;> simp [exportProgress, downloadExportedData, hu, hj, hmis]

/-- Witness for C5 at a concrete completed job polled and downloaded by a
different authenticated user. -/
theorem C5_owner_mismatch_forbidden_witness :
    (exportProgress (some "intruder") "job-1" (some stCompletedEx)).code = .forbidden ∧
    (downloadExportedData (some "intruder") "job-1" (some stCompletedEx)
      (fun _ => true)).code = .forbidden :=
  C5_owner_mismatch_forbidden "intruder" "job-1" stCompletedEx (fun _ => true)
    (by decide) (by decide) (by decide)

/-- C6: the download operation streams the archive only for a completed
record whose archive file exists: any non-completed status or empty
archive path answers Bad Request, a completed record whose file is gone
answers Gone, and otherwise the archive at `ZipPath` is streamed. -/
theorem C6_download_state_checks (uid jobID : String) (st : ExportJobStatus)
    (fileExists : String → Bool) (hu : uid ≠ "") (hj : jobID ≠ "") (hown : st.UID = uid) :
    ((st.Status ≠ "completed" ∨ st.ZipPath = "") →
      (downloadExportedData (some uid) jobID (some st) fileExists).code = .badRequest ∧
      (downloadExportedData (some uid) jobID (some st) fileExists).servedFile = none) ∧
    (st.Status = "completed" → st.ZipPath ≠ "" → fileExists st.ZipPath = false →
      (downloadExportedData (some uid) jobID (some st) fileExists).code = .gone ∧
      (downloadExportedData (some uid) jobID (some st) fileExists).servedFile = none) ∧
    (st.Status = "completed" → st.ZipPath ≠ "" → fileExists st.ZipPath = true →
      (downloadExportedData (some uid) jobID (some st) fileExists).code = .ok ∧
      (downloadExportedData (some uid) jobID (some st) fileExists).servedFile =
        some st.ZipPath) := by
  refine ⟨?_, ?_, ?_⟩
  · intro h1
    constructor <;> simp [downloadExportedData, hu, hj, hown, h1]
  · intro h1 h2 h3
    constructor <;> simp [downloadExportedData, hu, hj, hown, h1, h2, h3]
  · intro h1 h2 h3
    constructor <;> simp [downloadExportedData, hu, hj, hown, h1, h2, h3]

/-- Witness for C6: a failed record answers Bad Request, a completed
record whose archive file is gone answers Gone. -/
theorem C6_download_state_checks_witness :
    (downloadExportedData (some "user-1") "job-1" (some stFailedEx)
      (fun _ => true)).code = .badRequest ∧
    (downloadExportedData (some "user-1") "job-1" (some stCompletedEx)
      (fun _ => false)).code = .gone ∧
    (downloadExportedData (some "user-1") "job-1" (some stCompletedEx)
      (fun _ => true)).servedFile = some stCompletedEx.ZipPath :=
  ⟨((C6_download_state_checks "user-1" "job-1" stFailedEx (fun _ => true)
      (by decide) (by decide) (by decide)).1 (Or.inl (by decide))).1,
   ((C6_download_state_checks "user-1" "job-1" stCompletedEx (fun _ => false)
      (by decide) (by decide) (by decide)).2.1 rfl (by decide) rfl).1,
   ((C6_download_state_checks "user-1" "job-1" stCompletedEx (fun _ => true)
      (by decide) (by decide) (by decide)).2.2 rfl (by decide) rfl).2⟩

/-- C9: neither read handler mutates the job record: the poll handler's
TTL-refresh write persists exactly the record it loaded, and the download
handler never writes the record at all. -/
theorem C9_read_handlers_no_mutation (authUID : Option String) (jobID : String)
    (store : Option ExportJobStatus) (fileExists : String → Bool) :
    ((exportProgress authUID jobID store).writes = [] ∨
      ∃ st, store = some st ∧ (exportProgress authUID jobID store).writes = [st]) ∧
    (downloadExportedData authUID jobID store fileExists).writes = [] := by
  constructor
  · rcases authUID with _ | uid
    · exact Or.inl rfl
    by_cases hu : uid = ""
    · exact Or.inl (by simp [exportProgress, hu])
    by_cases hj : jobID = ""
    · exact Or.inl (by simp [exportProgress, hu, hj])
    rcases store with _ | st
    · exact Or.inl (by simp [exportProgress, hu, hj])
    by_cases hmis : st.UID = uid
    · exact Or.inr ⟨st, rfl, by simp [exportProgress, hu, hj, hmis]⟩
    · exact Or.inl (by simp [exportProgress, hu, hj, hmis])
  · rcases authUID with _ | uid
    · rfl
    rcases store with _ | st <;>
      · simp only [downloadExportedData]
        split_ifs <;> rfl

/-- C10: when the background task's initial load of the job record fails,
the task returns before writing anything, so the record written at
submission — status pending, progress 0, no error, no archive — is the
entire persisted history of the job. -/
theorem C10_load_failure_stays_pending (jobID uid : String) (t0 : Nat) (env : ExportEnv)
    (h : env.loaded = none) :
    runExportJob jobID uid env = [] ∧
    jobTrace jobID uid t0 env = [mkPendingStatus jobID uid t0] ∧
    (mkPendingStatus jobID uid t0).Status = "pending" ∧
    (mkPendingStatus jobID uid t0).Progress = 0 ∧
    (mkPendingStatus jobID uid t0).Error = "" ∧
    (mkPendingStatus jobID uid t0).ZipPath = "" := by
  refine ⟨?_, ?_, rfl, rfl, rfl, rfl⟩
  · simp [runExportJob, h]
  · simp [jobTrace, runExportJob, h]

/-- Witness for C10 at a concrete environment whose load fails. -/
theorem C10_load_failure_stays_pending_witness :
    runExportJob "job-1" "user-1" envNoLoad = [] ∧
    jobTrace "job-1" "user-1" 0 envNoLoad = [mkPendingStatus "job-1" "user-1" 0] ∧
    (mkPendingStatus "job-1" "user-1" 0).Status = "pending" ∧
    (mkPendingStatus "job-1" "user-1" 0).Progress = 0 ∧
    (mkPendingStatus "job-1" "user-1" 0).Error = "" ∧
    (mkPendingStatus "job-1" "user-1" 0).ZipPath = "" :=
  C10_load_failure_stays_pending "job-1" "user-1" 0 envNoLoad rfl

/-- C8: the statuses a job record ever moves through are pending to
running, running to completed, and running to failed; a terminal status is
never left (the deferred duplicate write repeats the same record), and the
persisted status sequence is always pending, a run of running records, and
a terminal block. -/
theorem C8_status_transitions (jobID uid : String) (t0 : Nat) (env : ExportEnv)
    (hl : env.loaded = none ∨ env.loaded = some (mkPendingStatus jobID uid t0)) :
    List.Chain' allowedStep ((jobTrace jobID uid t0 env).map ExportJobStatus.Status) ∧
    ∃ n rest,
      (jobTrace jobID uid t0 env).map ExportJobStatus.Status =
        "pending" :: List.replicate n "running" ++ rest ∧
      (rest = [] ∨ rest = ["completed", "completed"] ∨ rest = ["failed"]) := by
  rcases hl with hl | hl
  · have hmap : (jobTrace jobID uid t0 env).map ExportJobStatus.Status = ["pending"] := by
      simp [jobTrace, runExportJob, hl, mkPendingStatus]
    refine ⟨?_, 0, [], by simpa using hmap, Or.inl rfl⟩
    rw [hmap]
    exact List.chain'_singleton _
  obtain ⟨ws, fin, hws, hcase, _⟩ := runExportJob_shape jobID uid t0 env hl
  have hmapws : ws.map ExportJobStatus.Status = List.replicate ws.length "running" := by
    have h1 : ∀ s ∈ ws.map ExportJobStatus.Status, s = "running" := by
      intro s hs
      obtain ⟨w, hw, rfl⟩ := List.mem_map.mp hs
      exact (hws w hw).1
    have h2 := List.eq_replicate_of_mem h1
    rwa [List.length_map] at h2
  rcases hcase with ⟨hstat, _, _, _, _, htr, _⟩ | ⟨hstat, _, _, _, _, htr⟩
  · have hmap : (jobTrace jobID uid t0 env).map ExportJobStatus.Status =
        "pending" :: List.replicate (ws.length + 1) "running" ++
          ["completed", "completed"] := by
      simp [jobTrace, htr, hmapws, hstat, mkPendingStatus, List.replicate_succ]
    refine ⟨?_, ws.length + 1, ["completed", "completed"], hmap, Or.inr (Or.inl rfl)⟩
    rw [hmap]
    show List.Chain allowedStep "pending"
      ("running" :: (List.replicate ws.length "running" ++ ["completed", "completed"]))
    refine List.Chain.cons (Or.inr (Or.inl ⟨rfl, rfl⟩)) ?_
    exact chain_allowed_replicate _ (List.Chain.cons (Or.inr (Or.inr (Or.inl ⟨rfl, rfl⟩)))
      (List.Chain.cons (Or.inl rfl) List.Chain.nil)) ws.length
  · have hmap : (jobTrace jobID uid t0 env).map ExportJobStatus.Status =
        "pending" :: List.replicate (ws.length + 1) "running" ++ ["failed"] := by
      simp [jobTrace, htr, hmapws, hstat, mkPendingStatus, List.replicate_succ]
    refine ⟨?_, ws.length + 1, ["failed"], hmap, Or.inr (Or.inr rfl)⟩
    rw [hmap]
    show List.Chain allowedStep "pending"
      ("running" :: (List.replicate ws.length "running" ++ ["failed"]))
    refine List.Chain.cons (Or.inr (Or.inl ⟨rfl, rfl⟩)) ?_
    exact chain_allowed_replicate _ (List.Chain.cons (Or.inr (Or.inr (Or.inr ⟨rfl, rfl⟩)))
      List.Chain.nil) ws.length

/-- Witness for C8 at a concrete successful three-entry export. -/
theorem C8_status_transitions_witness :
    List.Chain' allowedStep
      ((jobTrace "job-1" "user-1" 0 envThree).map ExportJobStatus.Status) ∧
    ∃ n rest,
      (jobTrace "job-1" "user-1" 0 envThree).map ExportJobStatus.Status =
        "pending" :: List.replicate n "running" ++ rest ∧
      (rest = [] ∨ rest = ["completed", "completed"] ∨ rest = ["failed"]) :=
  C8_status_transitions "job-1" "user-1" 0 envThree (Or.inr rfl)

/-- C1: when every record-store call of the extraction succeeds, the job
completes with an empty error and a non-empty archive path no matter how
many individual media copies fail, every processed counter still reaches
the number of attempted items, and no persisted record ever carries the
failed status. -/
theorem C1_media_copy_best_effort (jobID uid : String) (t0 : Nat) (env : ExportEnv)
    (hl : env.loaded = some (mkPendingStatus jobID uid t0))
    (hok : envAllOkB env = true) :
    (∃ fin, (runExportJob jobID uid env).getLast? = some fin ∧
      fin.Status = "completed" ∧ fin.Error = "" ∧ fin.ZipPath ≠ "" ∧
      ∀ es, env.entriesRes = .ok es →
        fin.ProcessedEntries = es.length ∧
        fin.ProcessedImages = totalImagesLen es ∧
        fin.ProcessedAudio = totalAudioLen es) ∧
    (∀ w ∈ runExportJob jobID uid env, w.Status ≠ "failed") := by
  obtain ⟨ws, fin, hws, hcase, _⟩ := runExportJob_shape jobID uid t0 env hl
  rcases hcase with ⟨hstat, hzip, herr, _, _, htr, hcnt⟩ | ⟨_, _, _, hallF, _, _⟩
  swap
  · rw [hok] at hallF; cases hallF
  constructor
  · refine ⟨fin, ?_, hstat, herr, ?_, hcnt⟩
    · rw [htr]
      rw [show ({ mkPendingStatus jobID uid t0 with Status := "running" } :: ws) ++
          [fin, fin] = (({ mkPendingStatus jobID uid t0 with Status := "running" } :: ws)
            ++ [fin]) ++ [fin] by simp]
      exact List.getLast?_concat _
    · rw [hzip]
      exact zipPathOf_ne_empty uid jobID
  · intro w hw
    rw [htr] at hw
    rcases List.mem_append.mp hw with hw1 | hw1
    · rcases List.mem_cons.mp hw1 with rfl | hw2
      · exact show ¬("running" : String) = _ by decide
      · rw [(hws w hw2).1]; decide
    · have hwf : w = fin := by
        rcases List.mem_cons.mp hw1 with rfl | hw2
        · rfl
        · exact List.mem_singleton.mp hw2
      rw [hwf, hstat]
      decide

/-- Witness for C1 at a one-entry export whose single image copy fails:
the job still completes, with the image counter at the attempted count. -/
theorem C1_media_copy_best_effort_witness :
    (∃ fin, (runExportJob "job-1" "user-1" envLostMedia).getLast? = some fin ∧
      fin.Status = "completed" ∧ fin.Error = "" ∧ fin.ZipPath ≠ "" ∧
      ∀ es, envLostMedia.entriesRes = .ok es →
        fin.ProcessedEntries = es.length ∧
        fin.ProcessedImages = totalImagesLen es ∧
        fin.ProcessedAudio = totalAudioLen es) ∧
    (∀ w ∈ runExportJob "job-1" "user-1" envLostMedia, w.Status ≠ "failed") :=
  C1_media_copy_best_effort "job-1" "user-1" 0 envLostMedia rfl (by decide)

/-- C2 counterexample: the claim as stated is false for the tags
sub-attribute query.  In this environment every call succeeds except the
tags query of the single entry, which fails — yet the job still reaches
the completed status with an empty error, because `fetchTagsJSON`
swallows the query error and returns `"[]"` with a nil error. -/
theorem C2_tags_failure_counterexample :
    envTagsDown.entriesRes =
      .ok [{ okEntry "e1" with tagsRes := .error "connection refused" }] ∧
    ((runExportJob "job-1" "user-1" envTagsDown).getLast?).map
      (fun w => (w.Status, w.Error)) = some ("completed", "") := by
  constructor
  · rfl
  · decide

/-- C2 (amended): a failing category count, a failing entries query or
row scan, or a failing media-list query or row scan is fatal — the job's
last persisted record is failed with a non-empty error and no record is
ever completed; tags/locations query failures are excluded, since
`fetchTagsJSON`/`fetchLocationsJSON` swallow them. -/
theorem C2_fatal_store_failures (jobID uid : String) (t0 : Nat) (env : ExportEnv)
    (hl : env.loaded = some (mkPendingStatus jobID uid t0))
    (hfat : storeFatalB env = true) :
    (∃ fin, (runExportJob jobID uid env).getLast? = some fin ∧
      fin.Status = "failed" ∧ fin.Error ≠ "") ∧
    (∀ w ∈ runExportJob jobID uid env, w.Status ≠ "completed") := by
  obtain ⟨ws, fin, hws, hcase, _⟩ := runExportJob_shape jobID uid t0 env hl
  rcases hcase with ⟨_, _, _, _, hallT, _, _⟩ | ⟨hstat, herr, _, _, _, htr⟩
  · rw [envAllOkB_false_of_storeFatal env hfat] at hallT; cases hallT
  constructor
  · refine ⟨fin, ?_, hstat, herr⟩
    rw [htr]
    exact List.getLast?_concat _
  · intro w hw
    rw [htr] at hw
    rcases List.mem_append.mp hw with hw1 | hw1
    · rcases List.mem_cons.mp hw1 with rfl | hw2
      · exact show ¬("running" : String) = _ by decide
      · rw [(hws w hw2).1]; decide
    · rw [List.mem_singleton.mp hw1, hstat]
      decide

/-- Witness for the amended C2 at a concrete environment whose entries
count query fails. -/
theorem C2_fatal_store_failures_witness :
    (∃ fin, (runExportJob "job-1" "user-1" envOutage).getLast? = some fin ∧
      fin.Status = "failed" ∧ fin.Error ≠ "") ∧
    (∀ w ∈ runExportJob "job-1" "user-1" envOutage, w.Status ≠ "completed") :=
  C2_fatal_store_failures "job-1" "user-1" 0 envOutage rfl (by decide)

/-- C3 counterexample: the code truncates instead of rounding — after two
of three entries the persisted progress is 66 where the spec's rounding
formula gives 67 — and the `running` record persisted before the totals
are stored carries progress 0 with zero totals, where the spec's
accounting convention gives 100, so not every record persisted while
running matches the accounting. -/
theorem C3_progress_formula_counterexample :
    ((runExportJob "job-1" "user-1" envThree).get? 3).map
      (fun w => (w.Status, w.Progress, sumTotals w, sumProcessed w)) =
        some ("running", 66, 3, 2) ∧
    specProgress 3 2 = 67 ∧
    ((runExportJob "job-1" "user-1" envThree).get? 0).map
      (fun w => (w.Status, w.Progress, sumTotals w, sumProcessed w)) =
        some ("running", 0, 0, 0) ∧
    specProgress 0 0 = 100 := by
  refine ⟨?_, ?_, ?_, ?_⟩ <;> decide

/-- C3 (amended): the progress value computed and persisted after each
counter increment is the truncation toward zero (Go `int` conversion) of
the two-step correctly rounded double computation
`float64(sum(processed)) / float64(sum(totals)) * 100.0`, clamped above
at 100, with 100 for zero totals — not the rounded value: at 2 of 3 the
code persists 66 where rounding gives 67, and the float computation is
not the exact quotient floor either: at 29 of 100 the doubles give 28
where the exact floor is 29.  Every record persisted while running
carries either that accounting of its own counters or the submission
progress 0 (the running and totals writes persist before any
recomputation). -/
theorem C3_progress_truncation (st : ExportJobStatus) (jobID uid : String) (t0 : Nat)
    (env : ExportEnv) (w : ExportJobStatus)
    (hl : env.loaded = some (mkPendingStatus jobID uid t0))
    (hw : w ∈ runExportJob jobID uid env) (hrun : w.Status = "running") :
    (recalcProgress st).Progress =
      (if sumTotals st = 0 then 100
       else min (truncFloatPct (sumProcessed st) (sumTotals st)) 100) ∧
    (truncFloatPct 2 3 = 66 ∧ specProgress 3 2 = 67) ∧
    (truncFloatPct 29 100 = 28 ∧ 29 * 100 / 100 = 29) ∧
    (w.Progress = accOf w ∨ w.Progress = 0) := by
  refine ⟨?_, ⟨by decide, by decide⟩, ⟨by decide, by decide⟩, ?_⟩
  · rw [recalcProgress_eq]
    show accOf st = _
    unfold accOf
    rw [Nat.min_def]
    split_ifs <;> omega
  · obtain ⟨ws, fin, hws, hcase, _⟩ := runExportJob_shape jobID uid t0 env hl
    rcases hcase with ⟨hstat, _, _, _, _, htr, _⟩ | ⟨hstat, _, _, _, _, htr⟩
    · rw [htr] at hw
      rcases List.mem_append.mp hw with hw1 | hw1
      · rcases List.mem_cons.mp hw1 with rfl | hw2
        · exact Or.inr rfl
        · exact (hws w hw2).2.2.2
      · have hwf : w = fin := by
          rcases List.mem_cons.mp hw1 with rfl | hw2
          · rfl
          · exact List.mem_singleton.mp hw2
        rw [hwf, hstat] at hrun
        exact absurd hrun (by decide)
    · rw [htr] at hw
      rcases List.mem_append.mp hw with hw1 | hw1
      · rcases List.mem_cons.mp hw1 with rfl | hw2
        · exact Or.inr rfl
        · exact (hws w hw2).2.2.2
      · rw [List.mem_singleton.mp hw1, hstat] at hrun
        exact absurd hrun (by decide)

/-- Witness for the amended C3: the truncation formula at a concrete
record and the running write of a concrete trace. -/
theorem C3_progress_truncation_witness :
    (recalcProgress stCompletedEx).Progress =
      (if sumTotals stCompletedEx = 0 then 100
       else min (truncFloatPct (sumProcessed stCompletedEx) (sumTotals stCompletedEx)) 100) ∧
    (truncFloatPct 2 3 = 66 ∧ specProgress 3 2 = 67) ∧
    (truncFloatPct 29 100 = 28 ∧ 29 * 100 / 100 = 29) ∧
    (({ mkPendingStatus "job-1" "user-1" 0 with
          Status := "running" } : ExportJobStatus).Progress =
        accOf { mkPendingStatus "job-1" "user-1" 0 with Status := "running" } ∨
      ({ mkPendingStatus "job-1" "user-1" 0 with
          Status := "running" } : ExportJobStatus).Progress = 0) :=
  C3_progress_truncation stCompletedEx "job-1" "user-1" 0 envThree
    { mkPendingStatus "job-1" "user-1" 0 with Status := "running" } rfl (by decide) rfl

end JourneyApp
